import Mathlib

/-!
Verification of the snapshot-cache core of the process-list repository
(`src/main.py`), as a shallow embedding in Lean 4.

The embedding models, faithfully to the Python source:

* the wildcard keyword matcher of `ProcessCache.search_processes`
  (main.py lines 56-58): `pattern = re.escape(keyword.lower()).replace(r'\*', '.*')`
  compiled with `re.IGNORECASE` and used unanchored via `regex.search`.
  `re.escape` makes every character a literal except that each escaped `*`
  turns into `.*`; `.` in Python matches any character except `'\n'`
  (no `re.DOTALL`).  Case folding is modelled at ASCII granularity with
  `Char.toLower`, which is exactly Python's `str.lower` on ASCII.
* Python `dict` (insertion-ordered, update-in-place) as association lists,
* `ProcessCache` with its three indices, validity flag, expiry check and
  update lock (main.py lines 15-154),
* the record-removal sequence of `ProcessManager.kill_process`
  (main.py lines 571-575),
* the fallback filter of `ProcessFetcher.run` (main.py lines 234-247),
* the refresh step of `CacheManager.update_cache` (main.py lines 275-289),
  with the external `SystemDataFetcher` result passed in as an
  `Except String (List Record)` value.

Wall-clock time (`time.time()`) is modelled by passing the current time as
an explicit rational parameter.
-/

/-! ### Characters and Python `str.lower` (ASCII model) -/

/-- Python `str.lower`, modelled at ASCII granularity: `Char.toLower`
maps the code points 65-90 to 97-122 and fixes everything else, which is
exactly what `str.lower` does on ASCII text. -/
def pyLower (s : String) : String := String.mk (s.data.map Char.toLower)

/-! ### The compiled wildcard pattern

`re.escape(k).replace(r'\*', '.*')` yields, for each character `c` of `k`:
`.*` when `c = '*'`, and an escaped literal `c` otherwise (the `str.replace`
scan consumes exactly the two-character escapes `\*` produced from `*`,
left to right).  So the compiled pattern is the token list below.  -/

/-- One token of the compiled pattern: a literal character (matched
case-insensitively under `re.IGNORECASE`) or `.*`. -/
inductive RTok where
  | lit : Char → RTok
  | star : RTok
deriving DecidableEq

/-- Compiled pattern of a keyword: `*` becomes `.*`, every other character
a literal (mirrors `re.escape(keyword).replace(r'\*', '.*')`). -/
def buildPattern (k : String) : List RTok :=
  k.data.map (fun c => if c = '*' then RTok.star else RTok.lit c)

/-- Case-insensitive literal-character match (`re.IGNORECASE`). -/
def litEq (c d : Char) : Bool := c.toLower == d.toLower

/-- Anchored matcher on the empty remainder of the subject. -/
def reMatchNil : List RTok → Bool
  | [] => true
  | RTok.lit _ :: _ => false
  | RTok.star :: p => reMatchNil p

/-- Anchored matcher on a `d :: s` subject; `recur p'` computes the match of
`p'` against `s`.  `.*` never crosses `'\n'` (Python `.` without `DOTALL`). -/
def reMatchCons (d : Char) (recur : List RTok → Bool) : List RTok → Bool
  | [] => true
  | RTok.lit c :: p => litEq c d && recur p
  | RTok.star :: p => reMatchCons d recur p || (!(d == '\n') && recur (RTok.star :: p))

/-- Anchored matcher: does the pattern match some prefix of the subject? -/
def reMatchL : List Char → List RTok → Bool
  | [], p => reMatchNil p
  | d :: s, p => reMatchCons d (reMatchL s) p

/-- Does the pattern match some prefix of the subject (pattern first)? -/
def reMatch (p : List RTok) (s : List Char) : Bool := reMatchL s p

/-- Unanchored match, the semantics of Python `regex.search`: does the
pattern match starting at some position of the subject? -/
def reSearch (p : List RTok) : List Char → Bool
  | [] => reMatchL [] p
  | d :: s => reMatchL (d :: s) p || reSearch p s

/-- The whole-field test `regex.search(field)` performed by
`ProcessCache.search_processes`: the keyword is lowercased, compiled
(main.py lines 56-58) and searched in the field. -/
def keywordMatch (k field : String) : Bool :=
  reSearch (buildPattern (pyLower k)) field.data

/-! ### Plain substring search (specification side) -/

/-- Pointwise list-equality check used by the substring matcher. -/
def startsWithL : List Char → List Char → Bool
  | [], _ => true
  | _ :: _, [] => false
  | a :: as, b :: bs => (a == b) && startsWithL as bs

/-- Does `pat` occur as a contiguous run inside `l`? -/
def hasSub (pat : List Char) : List Char → Bool
  | [] => startsWithL pat []
  | c :: rest => startsWithL pat (c :: rest) || hasSub pat rest

/-- Specification-side predicate: `k` is a case-insensitive substring of
`s` (both sides lowercased, then contiguous containment). -/
def substrCIb (k s : String) : Bool := hasSub (pyLower k).data (pyLower s).data

/-! ### Python `str.split(',')` and `str.strip` -/

/-- Python `str.split(sep)` for a one-character separator, on character
lists: `[] ↦ [[]]`, and a separator starts a new chunk. -/
def pySplit (sep : Char) : List Char → List (List Char)
  | [] => [[]]
  | c :: rest =>
    if c = sep then [] :: pySplit sep rest
    else
      match pySplit sep rest with
      | t :: ts => (c :: t) :: ts
      | [] => [[c]]

/-- Python `str.strip()`: drop whitespace from both ends. -/
def pyStrip (l : List Char) : List Char :=
  ((l.dropWhile Char.isWhitespace).reverse.dropWhile Char.isWhitespace).reverse

/-! ### Association lists modelling Python `dict`

Python dictionaries are insertion-ordered; assigning to an existing key
updates the value in place (keeping the key's position), assigning to a
fresh key appends it. -/

/-- `d[k] = v` on an insertion-ordered dictionary. -/
def dinsert {α : Type} (k : String) (v : α) : List (String × α) → List (String × α)
  | [] => [(k, v)]
  | (k', v') :: rest => if k' = k then (k, v) :: rest else (k', v') :: dinsert k v rest

/-- `d.get(k)`. -/
def dget {α : Type} (k : String) : List (String × α) → Option α
  | [] => none
  | (k', v') :: rest => if k' = k then some v' else dget k rest

/-- `k in d`. -/
def dmem {α : Type} (k : String) (d : List (String × α)) : Bool := (dget k d).isSome

/-- `list(d.keys())`. -/
def dkeys {α : Type} (d : List (String × α)) : List String := d.map Prod.fst

/-- `list(d.values())`. -/
def dvalues {α : Type} (d : List (String × α)) : List α := d.map Prod.snd

/-- `del d[k]`. -/
def derase {α : Type} (k : String) (d : List (String × α)) : List (String × α) :=
  d.filter (fun e => e.1 ≠ k)

/-! ### Records -/

/-- One process record as produced by `SystemDataFetcher.fetch_all_processes`:
a dict with keys `pid`, `name`, `username`, `cmdline`, `ports`, all strings
(`ports` is the comma-joined list of listening ports). -/
structure Record where
  pid : String
  name : String
  username : String
  cmdline : String
  ports : String
deriving DecidableEq

/-- The port tokens of a `ports` field, as indexed by `update_cache`:
split on `','`, strip whitespace, drop empties. -/
def portTokens (ports : String) : List String :=
  ((pySplit ',' ports.data).map (fun t => String.mk (pyStrip t))).filter (fun t => t ≠ "")

/-! ### The `ProcessCache` state and operations -/

/-- State of `ProcessCache` (main.py lines 15-27).  `last_update_time` is a
rational number standing for the `time.time()` float. -/
structure ProcessCache where
  cache_expiry_seconds : ℚ
  process_data : List (String × Record)
  name_index : List (String × List String)
  port_index : List (String × String)
  username_index : List (String × List String)
  last_update_time : ℚ
  is_cache_valid : Bool
  update_lock : Bool
deriving DecidableEq

/-- `ProcessCache.__init__(cache_expiry_seconds)`. -/
def ProcessCache.init (ttl : ℚ) : ProcessCache :=
  ⟨ttl, [], [], [], [], 0, false, false⟩

/-- `is_expired` (main.py lines 29-31): strictly more than
`cache_expiry_seconds` seconds since the last update. -/
def ProcessCache.is_expired (c : ProcessCache) (now : ℚ) : Bool :=
  now - c.last_update_time > c.cache_expiry_seconds

/-- `is_valid` (main.py lines 33-35). -/
def ProcessCache.is_valid (c : ProcessCache) (now : ℚ) : Bool :=
  c.is_cache_valid && !(c.is_expired now)

/-- Index-building step for `name_index` / `username_index`
(main.py lines 120-128): create the key with `[]` if absent, then append
the pid to the list in place. -/
def addToIndex (k pid : String) (idx : List (String × List String)) :
    List (String × List String) :=
  match dget k idx with
  | none => dinsert k [pid] idx
  | some l => dinsert k (l ++ [pid]) idx

/-- Port-index building loop (main.py lines 131-135): for each
comma-separated chunk, strip it and, when non-empty, map it to the pid
(later writers overwrite earlier ones). -/
def insertPorts (pid : String) : List (List Char) → List (String × String) →
    List (String × String)
  | [], pi => pi
  | t :: rest, pi =>
    if String.mk (pyStrip t) = "" then insertPorts pid rest pi
    else insertPorts pid rest (dinsert (String.mk (pyStrip t)) pid pi)

/-- The rebuild loop of `update_cache` (main.py lines 111-135), threading
the four structures through the record list. -/
def updLoop : List Record → List (String × Record) → List (String × List String) →
    List (String × String) → List (String × List String) →
    List (String × Record) × List (String × List String) ×
    List (String × String) × List (String × List String)
  | [], pd, ni, pi, ui => (pd, ni, pi, ui)
  | proc :: rest, pd, ni, pi, ui =>
    updLoop rest (dinsert proc.pid proc pd) (addToIndex proc.name proc.pid ni)
      (if proc.ports ≠ "" then insertPorts proc.pid (pySplit ',' proc.ports.data) pi else pi)
      (addToIndex proc.username proc.pid ui)

/-- `update_cache` (main.py lines 96-141): a no-op while the update lock is
held; otherwise clear everything, rebuild table and indices from the input
list, stamp `last_update_time` with the current time, set the valid flag,
and release the lock (the `finally` block). -/
def ProcessCache.update_cache (c : ProcessCache) (process_list : List Record)
    (now : ℚ) : ProcessCache :=
  if c.update_lock then c
  else
    let built := updLoop process_list [] [] [] []
    { c with
      process_data := built.1
      name_index := built.2.1
      port_index := built.2.2.1
      username_index := built.2.2.2
      last_update_time := now
      is_cache_valid := true
      update_lock := false }

/-- `invalidate_cache` (main.py lines 143-145). -/
def ProcessCache.invalidate_cache (c : ProcessCache) : ProcessCache :=
  { c with is_cache_valid := false }

/-- `clear_cache` (main.py lines 147-154). -/
def ProcessCache.clear_cache (c : ProcessCache) : ProcessCache :=
  { c with
    process_data := []
    name_index := []
    port_index := []
    username_index := []
    is_cache_valid := false
    last_update_time := 0 }

/-! ### The four phases of `search_processes` -/

/-- Phase 1 (main.py lines 63-68): scan the pids of `process_data`. -/
def searchPidLoop (p : List RTok) : List (String × Record) → List Record →
    List String → List Record × List String
  | [], res, seen => (res, seen)
  | (pid, r) :: rest, res, seen =>
    if reSearch p pid.data then
      if pid ∈ seen then searchPidLoop p rest res seen
      else searchPidLoop p rest (res ++ [r]) (seen ++ [pid])
    else searchPidLoop p rest res seen

/-- Inner loop of phases 2 and 4 (main.py lines 73-76 and 89-92): emit the
records of the listed pids that are unseen and still present. -/
def emitPids (data : List (String × Record)) : List String → List Record →
    List String → List Record × List String
  | [], res, seen => (res, seen)
  | pid :: rest, res, seen =>
    if pid ∈ seen then emitPids data rest res seen
    else
      match dget pid data with
      | some r => emitPids data rest (res ++ [r]) (seen ++ [pid])
      | none => emitPids data rest res seen

/-- Phases 2 and 4 (main.py lines 71-76 and 87-92): scan an index whose
values are pid lists. -/
def searchIdxLoop (p : List RTok) (data : List (String × Record)) :
    List (String × List String) → List Record → List String →
    List Record × List String
  | [], res, seen => (res, seen)
  | (key, pids) :: rest, res, seen =>
    if reSearch p key.data then
      match emitPids data pids res seen with
      | (res', seen') => searchIdxLoop p data rest res' seen'
    else searchIdxLoop p data rest res seen

/-- Phase 3 (main.py lines 79-84): scan the port index. -/
def searchPortLoop (p : List RTok) (data : List (String × Record)) :
    List (String × String) → List Record → List String →
    List Record × List String
  | [], res, seen => (res, seen)
  | (port, pid) :: rest, res, seen =>
    if reSearch p port.data then
      if pid ∈ seen then searchPortLoop p data rest res seen
      else
        match dget pid data with
        | some r => searchPortLoop p data rest (res ++ [r]) (seen ++ [pid])
        | none => searchPortLoop p data rest res seen
    else searchPortLoop p data rest res seen

/-- `search_processes` (main.py lines 51-94): empty keyword returns every
record; otherwise lowercase and compile the keyword and run the four
phases (pid, name, port, username) with a shared `seen_pids` set. -/
def ProcessCache.search_processes (c : ProcessCache) (keyword : String) :
    List Record :=
  if keyword = "" then dvalues c.process_data
  else
    let p := buildPattern (pyLower keyword)
    let s1 := searchPidLoop p c.process_data [] []
    let s2 := searchIdxLoop p c.process_data c.name_index s1.1 s1.2
    let s3 := searchPortLoop p c.process_data c.port_index s2.1 s2.2
    let s4 := searchIdxLoop p c.process_data c.username_index s3.1 s3.2
    s4.1

/-- The single-record removal sequence of `ProcessManager.kill_process`
(main.py lines 571-575): if the pid is cached, delete it from
`process_data` and rebuild everything by calling `update_cache` on the
remaining values. -/
def removeRecord (c : ProcessCache) (pid : String) (now : ℚ) : ProcessCache :=
  if dmem pid c.process_data then
    let pd := derase pid c.process_data
    ProcessCache.update_cache { c with process_data := pd } (dvalues pd) now
  else c

/-- The in-line fallback filter of `ProcessFetcher.run`
(main.py lines 234-247): when the keyword is non-empty, compile it
(without lowercasing — `re.IGNORECASE` makes that immaterial) and keep the
records whose pid, name, username or raw `ports` string matches. -/
def ProcessFetcher.fallbackFilter (keyword : String) (procs : List Record) :
    List Record :=
  if keyword = "" then procs
  else
    let p := buildPattern keyword
    procs.filter (fun r =>
      reSearch p r.pid.data || reSearch p r.name.data ||
      reSearch p r.username.data || reSearch p r.ports.data)

/-! ### The refresh coordinator -/

/-- State of `CacheManager` (main.py lines 252-263): the shared cache and
the auto-update flag (the armed periodic timer). -/
structure CacheManager where
  cache : ProcessCache
  is_running : Bool
deriving DecidableEq

/-- `CacheManager.update_cache` (main.py lines 275-289).  The external
fetch (`SystemDataFetcher.fetch_all_processes`) either returns a record
list or raises; the whole body is wrapped in `try/except`.  On success the
cache is rebuilt and the new list emitted on `cache_updated`; on failure
nothing is touched and the error string is emitted on
`cache_update_failed`.  The returned triple is
(new manager state, `cache_updated` payload, `cache_update_failed` payload). -/
def CacheManager.update_cache (m : CacheManager)
    (fetch : Except String (List Record)) (now : ℚ) :
    CacheManager × Option (List Record) × Option String :=
  match fetch with
  | Except.ok l => ({ m with cache := m.cache.update_cache l now }, some l, none)
  | Except.error e => (m, none, some e)

/-! ### Specification-side predicates -/

/-- Declarative rendering of the (amended) wildcard rule for one maximal
literal segment: the segment equals the matched chunk up to ASCII case. -/
def segCI (a b : List Char) : Prop := a.map Char.toLower = b.map Char.toLower

/-- Declarative wildcard semantics over the `'*'`-separated segments of the
keyword: the matched region is the segments in order, case-insensitively,
with arbitrary newline-free gaps standing for the `*`s between them. -/
def SpecSegs : List (List Char) → List Char → Prop
  | [], m => m = []
  | [seg], m => segCI seg m
  | seg :: s2 :: rest, m =>
    ∃ m0 g t, m = m0 ++ g ++ t ∧ segCI seg m0 ∧ '\n' ∉ g ∧ SpecSegs (s2 :: rest) t

/-- Exact denotation of a compiled pattern: the pattern matches the whole
character list, with each `.*` standing for a newline-free gap and each
literal compared case-insensitively. -/
def DenExact : List RTok → List Char → Prop
  | [], s => s = []
  | RTok.lit c :: p, s => ∃ d t, s = d :: t ∧ litEq c d = true ∧ DenExact p t
  | RTok.star :: p, s => ∃ g t, s = g ++ t ∧ '\n' ∉ g ∧ DenExact p t

/-- Every id referenced by any of the three indices is a key of the record
table (the index-consistency invariant of the spec). -/
def indexConsistent (c : ProcessCache) : Bool :=
  c.name_index.all (fun e => e.2.all (fun pid => dmem pid c.process_data)) &&
  c.port_index.all (fun e => dmem e.2 c.process_data) &&
  c.username_index.all (fun e => e.2.all (fun pid => dmem pid c.process_data))

/-- Some index still references the given id. -/
def referencesId (c : ProcessCache) (pid : String) : Bool :=
  c.name_index.any (fun e => decide (pid ∈ e.2)) ||
  c.port_index.any (fun e => e.2 == pid) ||
  c.username_index.any (fun e => decide (pid ∈ e.2))

/-- Well-formed record table: keys are pairwise distinct and each entry's
value carries its key as pid (true of every table `update_cache` builds). -/
def wfTable (d : List (String × Record)) : Prop :=
  (dkeys d).Nodup ∧ ∀ e ∈ d, e.2.pid = e.1

/-- No port token is shared by two distinct records of the list. -/
def portsDisjoint (R : List Record) : Prop :=
  ∀ r1 ∈ R, ∀ r2 ∈ R, ∀ t ∈ portTokens r1.ports, t ∈ portTokens r2.ports → r1 = r2

instance (d : List (String × Record)) : Decidable (wfTable d) := by
  unfold wfTable
  infer_instance

instance (R : List Record) : Decidable (portsDisjoint R) := by
  unfold portsDisjoint
  infer_instance

/-! ### Proof-layer decompositions of the rebuild loop -/

/-- Lowercase the literal tokens of a pattern. -/
def lowTok : RTok → RTok
  | RTok.lit c => RTok.lit c.toLower
  | RTok.star => RTok.star

/-- Record-table component of the rebuild loop of `update_cache`. -/
def buildPd : List Record → List (String × Record) → List (String × Record)
  | [], pd => pd
  | r :: l, pd => buildPd l (dinsert r.pid r pd)

/-- Name/username-index component of the rebuild loop, generic in the
indexed field. -/
def buildIdx (f : Record → String) : List Record → List (String × List String) →
    List (String × List String)
  | [], ni => ni
  | r :: l, ni => buildIdx f l (addToIndex (f r) r.pid ni)

/-- Port-index component of the rebuild loop. -/
def buildPi : List Record → List (String × String) → List (String × String)
  | [], pi => pi
  | r :: l, pi =>
    buildPi l
      (if r.ports ≠ "" then insertPorts r.pid (pySplit ',' r.ports.data) pi else pi)

/-- The pids grouped under key `n` by the index builder for field `f`. -/
def pidsFor (f : Record → String) (n : String) (l : List Record) : List String :=
  (l.filter (fun r => f r = n)).map Record.pid

example : keywordMatch "a*b" "aXXXb" = true := by decide
example : keywordMatch "a*b" "ab" = true := by decide
example : keywordMatch "a*b" "ba" = false := by decide
example : keywordMatch "ch*exe" "chrome.exe" = true := by decide
example : keywordMatch "a*b" "a\nb" = false := by decide
example : keywordMatch "A.B" "xa.bz" = true := by decide
example : keywordMatch "a.b" "xaXbz" = false := by decide

/-! ### Equation lemmas for the matcher -/

theorem reMatch_nil_pat (s : List Char) : reMatch [] s = true := by
  cases s <;> rfl

theorem reMatch_lit_nil (c : Char) (p : List RTok) :
    reMatch (RTok.lit c :: p) [] = false := rfl

theorem reMatch_star_nil (p : List RTok) :
    reMatch (RTok.star :: p) [] = reMatch p [] := rfl

theorem reMatch_lit_cons (c : Char) (p : List RTok) (d : Char) (s : List Char) :
    reMatch (RTok.lit c :: p) (d :: s) = (litEq c d && reMatch p s) := rfl

theorem reMatch_star_cons (p : List RTok) (d : Char) (s : List Char) :
    reMatch (RTok.star :: p) (d :: s) =
      (reMatch p (d :: s) || (!(d == '\n') && reMatch (RTok.star :: p) s)) := rfl

theorem reSearch_nil (p : List RTok) : reSearch p [] = reMatch p [] := rfl

theorem reSearch_cons (p : List RTok) (d : Char) (s : List Char) :
    reSearch p (d :: s) = (reMatch p (d :: s) || reSearch p s) := rfl

/-! ### ASCII case-folding facts -/

theorem toLower_idem (c : Char) : c.toLower.toLower = c.toLower := by
  by_cases h : c.toNat ≥ 65 ∧ c.toNat ≤ 90
  · obtain ⟨h1, h2⟩ := h
    obtain ⟨n, hn⟩ : ∃ n, c.toNat = n := ⟨_, rfl⟩
    rw [hn] at h1 h2
    have hc : c = Char.ofNat n := by rw [← hn, Char.ofNat_toNat]
    subst hc
    interval_cases n <;> decide
  · have hcc : c.toLower = c := by
      show (if c.toNat ≥ 65 ∧ c.toNat ≤ 90 then Char.ofNat (c.toNat + 32) else c) = c
      rw [if_neg h]
    rw [hcc, hcc]

theorem toLower_eq_star_iff (c : Char) : c.toLower = '*' ↔ c = '*' := by
  by_cases h : c.toNat ≥ 65 ∧ c.toNat ≤ 90
  · obtain ⟨h1, h2⟩ := h
    obtain ⟨n, hn⟩ : ∃ n, c.toNat = n := ⟨_, rfl⟩
    rw [hn] at h1 h2
    have hc : c = Char.ofNat n := by rw [← hn, Char.ofNat_toNat]
    subst hc
    interval_cases n <;> decide
  · have hcc : c.toLower = c := by
      show (if c.toNat ≥ 65 ∧ c.toNat ≤ 90 then Char.ofNat (c.toNat + 32) else c) = c
      rw [if_neg h]
    rw [hcc]

theorem litEq_toLower_left (c d : Char) : litEq c.toLower d = litEq c d := by
  unfold litEq
  rw [toLower_idem]

/-! ### Lowercasing the keyword does not change the compiled matcher -/

theorem buildPattern_pyLower (k : String) :
    buildPattern (pyLower k) = (buildPattern k).map lowTok := by
  show (k.data.map Char.toLower).map _ = (k.data.map _).map lowTok
  rw [List.map_map, List.map_map]
  apply List.map_congr_left
  intro c _
  by_cases h : c = '*'
  · subst h; rfl
  · have h2 : ¬ c.toLower = '*' := fun hh => h ((toLower_eq_star_iff c).mp hh)
    simp [Function.comp, h, h2, lowTok]

theorem reMatch_lowTok (s : List Char) :
    ∀ p, reMatch (p.map lowTok) s = reMatch p s := by
  induction s with
  | nil =>
    intro p
    induction p with
    | nil => rfl
    | cons t p ihp =>
      cases t with
      | lit c => rfl
      | star =>
        rw [List.map_cons]
        show reMatch (RTok.star :: p.map lowTok) [] = _
        rw [reMatch_star_nil, reMatch_star_nil, ihp]
  | cons d s ihs =>
    intro p
    induction p with
    | nil => rfl
    | cons t p ihp =>
      cases t with
      | lit c =>
        rw [List.map_cons]
        show reMatch (RTok.lit c.toLower :: p.map lowTok) (d :: s) = _
        rw [reMatch_lit_cons, reMatch_lit_cons, litEq_toLower_left, ihs p]
      | star =>
        rw [List.map_cons]
        show reMatch (RTok.star :: p.map lowTok) (d :: s) = _
        rw [reMatch_star_cons, reMatch_star_cons, ihp]
        have h2 := ihs (RTok.star :: p)
        rw [List.map_cons] at h2
        simp only [lowTok] at h2
        rw [h2]

theorem reSearch_lowTok (p : List RTok) (s : List Char) :
    reSearch (p.map lowTok) s = reSearch p s := by
  induction s with
  | nil => rw [reSearch_nil, reSearch_nil, reMatch_lowTok]
  | cons d s ih => rw [reSearch_cons, reSearch_cons, reMatch_lowTok, ih]

/-- The field test of `search_processes` equals the same pattern compiled
from the raw (non-lowercased) keyword: `IGNORECASE` makes the `.lower()`
call immaterial. -/
theorem keywordMatch_eq_raw (k f : String) :
    keywordMatch k f = reSearch (buildPattern k) f.data := by
  unfold keywordMatch
  rw [buildPattern_pyLower, reSearch_lowTok]

/-! ### Star-free keywords degenerate to substring search -/

theorem reMatch_lits (l : List Char) :
    ∀ s, reMatch (l.map RTok.lit) s =
      startsWithL (l.map Char.toLower) (s.map Char.toLower) := by
  induction l with
  | nil => intro s; cases s <;> rfl
  | cons c l ih =>
    intro s
    cases s with
    | nil => rfl
    | cons d s =>
      rw [List.map_cons, List.map_cons, List.map_cons]
      rw [reMatch_lit_cons]
      show _ = (startsWithL (c.toLower :: l.map Char.toLower)
        (d.toLower :: s.map Char.toLower) : Bool)
      unfold startsWithL litEq
      rw [ih s]

theorem reSearch_lits (l : List Char) (s : List Char) :
    reSearch (l.map RTok.lit) s = hasSub (l.map Char.toLower) (s.map Char.toLower) := by
  induction s with
  | nil =>
    rw [reSearch_nil, reMatch_lits]
    rfl
  | cons d s ih =>
    rw [reSearch_cons, List.map_cons]
    show _ = (startsWithL (l.map Char.toLower) (d.toLower :: s.map Char.toLower)
      || hasSub (l.map Char.toLower) (s.map Char.toLower) : Bool)
    rw [← ih, ← List.map_cons, reMatch_lits]

theorem buildPattern_no_star (k : String) (h : '*' ∉ k.data) :
    buildPattern k = k.data.map RTok.lit := by
  apply List.map_congr_left
  intro c hc
  have : c ≠ '*' := fun hh => h (hh ▸ hc)
  simp [this]

/-- For a star-free keyword the compiled matcher is exactly
case-insensitive substring search. -/
theorem keywordMatch_no_star (k f : String) (h : '*' ∉ k.data) :
    keywordMatch k f = substrCIb k f := by
  rw [keywordMatch_eq_raw, buildPattern_no_star k h, reSearch_lits]
  rfl

/-! ### Dictionary lemmas -/

theorem dget_dinsert {α : Type} (k k' : String) (v : α) (d : List (String × α)) :
    dget k (dinsert k' v d) = if k' = k then some v else dget k d := by
  induction d with
  | nil => rfl
  | cons e d ih =>
    obtain ⟨k0, v0⟩ := e
    by_cases h : k0 = k'
    · subst h
      by_cases h2 : k0 = k <;> simp [dinsert, dget, h2]
    · by_cases h2 : k0 = k
      · subst h2
        have : ¬ k' = k0 := fun hh => h hh.symm
        simp [dinsert, dget, h, this]
      · simp [dinsert, dget, h, h2, ih]

theorem dinsert_head_eq {α : Type} (k : String) (v v0 : α) (d : List (String × α)) :
    dinsert k v ((k, v0) :: d) = (k, v) :: d := by
  simp [dinsert]

theorem dinsert_head_ne {α : Type} {k0 k : String} (h : k0 ≠ k) (v : α) (v0 : α)
    (d : List (String × α)) :
    dinsert k v ((k0, v0) :: d) = (k0, v0) :: dinsert k v d := by
  simp [dinsert, h]

theorem dget_head_eq {α : Type} (k : String) (v0 : α) (d : List (String × α)) :
    dget k ((k, v0) :: d) = some v0 := by
  simp [dget]

theorem dget_head_ne {α : Type} {k0 k : String} (h : k0 ≠ k) (v0 : α)
    (d : List (String × α)) : dget k ((k0, v0) :: d) = dget k d := by
  simp [dget, h]

theorem mem_dkeys_dinsert {α : Type} (a k : String) (v : α) (d : List (String × α)) :
    a ∈ dkeys (dinsert k v d) ↔ a = k ∨ a ∈ dkeys d := by
  induction d with
  | nil => simp [dinsert, dkeys]
  | cons e d ih =>
    obtain ⟨k0, v0⟩ := e
    by_cases h : k0 = k
    · subst h; simp [dinsert, dkeys]
    · simp only [dinsert, if_neg h, dkeys, List.map_cons, List.mem_cons]
      rw [show (dkeys (dinsert k v d) = (dinsert k v d).map Prod.fst) from rfl] at ih
      rw [ih]
      tauto

theorem dkeys_dinsert_nodup {α : Type} (k : String) (v : α) (d : List (String × α))
    (h : (dkeys d).Nodup) : (dkeys (dinsert k v d)).Nodup := by
  induction d with
  | nil => simp [dinsert, dkeys]
  | cons e d ih =>
    obtain ⟨k0, v0⟩ := e
    simp only [dkeys, List.map_cons, List.nodup_cons] at h
    obtain ⟨h1, h2⟩ := h
    by_cases hk : k0 = k
    · subst hk
      rw [dinsert_head_eq]
      simp only [dkeys, List.map_cons, List.nodup_cons] at h1 ⊢
      exact ⟨h1, h2⟩
    · rw [dinsert_head_ne hk]
      simp only [dkeys, List.map_cons, List.nodup_cons]
      refine ⟨?_, ih h2⟩
      intro hmem
      rcases (mem_dkeys_dinsert k0 k v d).mp hmem with h3 | h3
      · exact hk h3
      · exact h1 h3

theorem mem_of_mem_dinsert {α : Type} (e : String × α) (k : String) (v : α)
    (d : List (String × α)) (h : e ∈ dinsert k v d) : e = (k, v) ∨ e ∈ d := by
  induction d with
  | nil => simp [dinsert] at h; exact Or.inl h
  | cons e0 d ih =>
    obtain ⟨k0, v0⟩ := e0
    by_cases hk : k0 = k
    · subst hk
      rw [dinsert_head_eq] at h
      rcases List.mem_cons.mp h with h | h
      · exact Or.inl h
      · exact Or.inr (List.mem_cons_of_mem _ h)
    · rw [dinsert_head_ne hk] at h
      rw [List.mem_cons] at h
      rcases h with h | h
      · exact Or.inr (h ▸ List.mem_cons_self _ _)
      · rcases ih h with h2 | h2
        · exact Or.inl h2
        · exact Or.inr (List.mem_cons_of_mem _ h2)

theorem dget_mem {α : Type} (k : String) (v : α) (d : List (String × α))
    (h : dget k d = some v) : (k, v) ∈ d := by
  induction d with
  | nil => simp [dget] at h
  | cons e d ih =>
    obtain ⟨k0, v0⟩ := e
    by_cases hk : k0 = k
    · subst hk
      rw [dget_head_eq] at h
      rw [Option.some_inj] at h
      rw [h]
      exact List.mem_cons_self _ _
    · rw [dget_head_ne hk] at h
      exact List.mem_cons_of_mem _ (ih h)

theorem mem_dget {α : Type} (k : String) (v : α) (d : List (String × α))
    (hnd : (dkeys d).Nodup) (h : (k, v) ∈ d) : dget k d = some v := by
  induction d with
  | nil => simp at h
  | cons e d ih =>
    obtain ⟨k0, v0⟩ := e
    simp only [dkeys, List.map_cons, List.nodup_cons] at hnd
    obtain ⟨hn1, hn2⟩ := hnd
    rcases List.mem_cons.mp h with h | h
    · have h1 : k0 = k := by
        have := congrArg Prod.fst h.symm
        simpa using this
      have h2 : v0 = v := by
        have := congrArg Prod.snd h.symm
        simpa using this
      subst h1
      subst h2
      simp [dget]
    · have hk : k0 ≠ k := by
        intro hh
        subst hh
        exact hn1 (List.mem_map.mpr ⟨(k0, v), h, rfl⟩)
      simp only [dget, if_neg hk]
      exact ih hn2 h

theorem dget_eq_none_iff {α : Type} (k : String) (d : List (String × α)) :
    dget k d = none ↔ k ∉ dkeys d := by
  induction d with
  | nil => simp [dget, dkeys]
  | cons e d ih =>
    obtain ⟨k0, v0⟩ := e
    by_cases hk : k0 = k
    · subst hk; simp [dget, dkeys]
    · simp [dget, dkeys, hk, ih, Ne.symm hk]

theorem dget_derase_self {α : Type} (k : String) (d : List (String × α)) :
    dget k (derase k d) = none := by
  induction d with
  | nil => rfl
  | cons e d ih =>
    obtain ⟨k0, v0⟩ := e
    by_cases hk : k0 = k
    · subst hk; simpa [derase, List.filter] using ih
    · simpa [derase, List.filter, hk, dget] using ih

theorem dget_derase_other {α : Type} (k k' : String) (d : List (String × α))
    (h : k ≠ k') : dget k (derase k' d) = dget k d := by
  induction d with
  | nil => rfl
  | cons e d ih =>
    obtain ⟨k0, v0⟩ := e
    by_cases hk : k0 = k'
    · subst hk
      have : k0 ≠ k := fun hh => h (hh ▸ rfl)
      simpa [derase, List.filter, dget, this] using ih
    · by_cases hk2 : k0 = k
      · subst hk2; simp [derase, List.filter, hk, dget]
      · simpa [derase, List.filter, hk, hk2, dget] using ih

theorem dkeys_derase {α : Type} (k : String) (d : List (String × α)) :
    dkeys (derase k d) = (dkeys d).filter (fun a => a ≠ k) := by
  induction d with
  | nil => rfl
  | cons e d ih =>
    obtain ⟨k0, v0⟩ := e
    by_cases hk : k0 = k <;> simp [derase, dkeys, List.filter, hk] at ih ⊢ <;>
      simpa [derase, dkeys] using ih

theorem derase_keys_nodup {α : Type} (k : String) (d : List (String × α))
    (h : (dkeys d).Nodup) : (dkeys (derase k d)).Nodup := by
  rw [dkeys_derase]
  exact h.filter _

theorem mem_of_mem_derase {α : Type} (e : String × α) (k : String)
    (d : List (String × α)) (h : e ∈ derase k d) : e ∈ d ∧ e.1 ≠ k := by
  unfold derase at h
  have h2 := List.of_mem_filter h
  exact ⟨List.mem_of_mem_filter h, by simpa using h2⟩

theorem dvalues_wf_dget (d : List (String × Record)) (hwf : wfTable d)
    (r : Record) (h : r ∈ dvalues d) : dget r.pid d = some r := by
  obtain ⟨e, he, hv⟩ := List.mem_map.mp h
  have hpid : e.2.pid = e.1 := hwf.2 e he
  have : e = (r.pid, r) := by
    obtain ⟨k0, v0⟩ := e
    simp only at hv
    subst hv
    simp only at hpid
    rw [hpid]
  rw [this] at he
  exact mem_dget _ _ _ hwf.1 he

/-! ### Decomposing the rebuild loop -/

theorem updLoop_split (l : List Record) (pd : List (String × Record))
    (ni : List (String × List String)) (pi : List (String × String))
    (ui : List (String × List String)) :
    updLoop l pd ni pi ui =
      (buildPd l pd, buildIdx Record.name l ni, buildPi l pi,
        buildIdx Record.username l ui) := by
  induction l generalizing pd ni pi ui with
  | nil => rfl
  | cons r l ih => simp [updLoop, buildPd, buildIdx, buildPi, ih]

theorem update_cache_eq (c : ProcessCache) (R : List Record) (now : ℚ)
    (h : c.update_lock = false) :
    c.update_cache R now =
      { c with
        process_data := buildPd R []
        name_index := buildIdx Record.name R []
        port_index := buildPi R []
        username_index := buildIdx Record.username R []
        last_update_time := now
        is_cache_valid := true
        update_lock := false } := by
  unfold ProcessCache.update_cache
  rw [h]
  simp [updLoop_split]

theorem dmem_dinsert {α : Type} (a k : String) (v : α) (d : List (String × α)) :
    dmem a (dinsert k v d) = (k == a || dmem a d) := by
  unfold dmem
  rw [dget_dinsert]
  by_cases h : k = a <;> simp [h]

theorem dinsert_fresh {α : Type} (k : String) (v : α) (d : List (String × α))
    (h : dmem k d = false) : dinsert k v d = d ++ [(k, v)] := by
  induction d with
  | nil => rfl
  | cons e d ih =>
    obtain ⟨k0, v0⟩ := e
    by_cases hk : k0 = k
    · subst hk
      rw [dmem, dget_head_eq] at h
      simp at h
    · rw [dinsert_head_ne hk]
      rw [dmem, dget_head_ne hk] at h
      rw [ih h]
      simp

theorem dget_append {α : Type} (k : String) (d1 d2 : List (String × α)) :
    dget k (d1 ++ d2) = (dget k d1).or (dget k d2) := by
  induction d1 with
  | nil => simp [dget]
  | cons e d ih =>
    obtain ⟨k0, v0⟩ := e
    by_cases h : k0 = k
    · subst h
      rw [List.cons_append, dget_head_eq, dget_head_eq]
      rfl
    · rw [List.cons_append, dget_head_ne h, dget_head_ne h, ih]

/-! ### The record table built by `update_cache` -/

theorem buildPd_keyed (l : List Record) (pd : List (String × Record))
    (h : ∀ e ∈ pd, e.2.pid = e.1) : ∀ e ∈ buildPd l pd, e.2.pid = e.1 := by
  induction l generalizing pd with
  | nil => exact h
  | cons r l ih =>
    refine ih (dinsert r.pid r pd) ?_
    intro e' he'
    rcases mem_of_mem_dinsert e' r.pid r pd he' with h2 | h2
    · rw [h2]
    · exact h e' h2

theorem buildPd_nodup (l : List Record) (pd : List (String × Record))
    (h : (dkeys pd).Nodup) : (dkeys (buildPd l pd)).Nodup := by
  induction l generalizing pd with
  | nil => exact h
  | cons r l ih => exact ih _ (dkeys_dinsert_nodup _ _ _ h)

theorem buildPd_wf (l : List Record) : wfTable (buildPd l []) :=
  ⟨buildPd_nodup l [] (by simp [dkeys]), buildPd_keyed l [] (by simp)⟩

theorem buildPd_fresh (l : List Record) (pd : List (String × Record))
    (hnd : (l.map Record.pid).Nodup)
    (hfresh : ∀ r ∈ l, dmem r.pid pd = false) :
    buildPd l pd = pd ++ l.map (fun r => (r.pid, r)) := by
  induction l generalizing pd with
  | nil => simp [buildPd]
  | cons r l ih =>
    have h1 : dmem r.pid pd = false := hfresh r (List.mem_cons_self r l)
    simp only [List.map_cons, List.nodup_cons] at hnd
    obtain ⟨hr, hnd'⟩ := hnd
    show buildPd l (dinsert r.pid r pd) = _
    rw [dinsert_fresh _ _ _ h1]
    rw [ih (pd ++ [(r.pid, r)]) hnd' ?_]
    · simp
    · intro r' hr'
      have hne : r'.pid ≠ r.pid := by
        intro hh
        exact hr (hh ▸ List.mem_map.mpr ⟨r', hr', rfl⟩)
      unfold dmem
      rw [dget_append]
      have e1 : dget r'.pid pd = none := by
        have := hfresh r' (List.mem_cons_of_mem _ hr')
        unfold dmem at this
        cases hg : dget r'.pid pd with
        | none => rfl
        | some v => rw [hg] at this; simp at this
      have e2 : dget r'.pid [(r.pid, r)] = none := by
        rw [dget_head_ne (fun hh => hne hh.symm)]
        rfl
      rw [e1, e2]
      rfl

/-- The table built from a record list with pairwise-distinct pids is that
list, keyed by pid, in order. -/
theorem buildPd_of_nodup (l : List Record) (hnd : (l.map Record.pid).Nodup) :
    buildPd l [] = l.map (fun r => (r.pid, r)) := by
  rw [buildPd_fresh l [] hnd (fun r _ => rfl)]
  rfl

theorem buildPd_dget (l : List Record) (pd : List (String × Record)) (k : String) :
    dget k (buildPd l pd) =
      (l.reverse.find? (fun r => r.pid == k)).or (dget k pd) := by
  induction l generalizing pd with
  | nil => simp [buildPd]
  | cons r l ih =>
    show dget k (buildPd l (dinsert r.pid r pd)) = _
    rw [ih]
    rw [dget_dinsert]
    rw [List.reverse_cons, List.find?_append]
    cases hf : l.reverse.find? (fun r => r.pid == k) with
    | some r0 => simp
    | none =>
      by_cases hk : r.pid = k
      · have hb : (r.pid == k) = true := by simp [hk]
        simp [List.find?, hb, hk]
      · have hb : (r.pid == k) = false := by simp [hk]
        simp [List.find?, hb, hk]

/-! ### The name/username indices built by `update_cache` -/

theorem addToIndex_dget (n k pid : String) (idx : List (String × List String)) :
    dget n (addToIndex k pid idx) =
      if k = n then some ((dget n idx).getD [] ++ [pid]) else dget n idx := by
  unfold addToIndex
  cases h : dget k idx with
  | none =>
    rw [dget_dinsert]
    by_cases hk : k = n
    · subst hk
      simp [h]
    · simp [hk]
  | some l0 =>
    rw [dget_dinsert]
    by_cases hk : k = n
    · subst hk
      simp [h]
    · simp [hk]

theorem pidsFor_cons_eq (f : Record → String) (n : String) (r : Record)
    (l : List Record) (h : f r = n) :
    pidsFor f n (r :: l) = r.pid :: pidsFor f n l := by
  simp [pidsFor, List.filter, h]

theorem pidsFor_cons_ne (f : Record → String) (n : String) (r : Record)
    (l : List Record) (h : ¬ f r = n) :
    pidsFor f n (r :: l) = pidsFor f n l := by
  simp [pidsFor, List.filter, h]

theorem buildIdx_dget (f : Record → String) (l : List Record)
    (ni : List (String × List String)) (n : String) :
    dget n (buildIdx f l ni) =
      match dget n ni with
      | some old => some (old ++ pidsFor f n l)
      | none => if pidsFor f n l = [] then none else some (pidsFor f n l) := by
  induction l generalizing ni with
  | nil => cases h : dget n ni <;> simp [buildIdx, pidsFor, h]
  | cons r l ih =>
    show dget n (buildIdx f l (addToIndex (f r) r.pid ni)) = _
    rw [ih]
    rw [addToIndex_dget]
    by_cases hf : f r = n
    · rw [if_pos hf, pidsFor_cons_eq f n r l hf]
      cases h : dget n ni with
      | none => simp
      | some old => simp
    · rw [if_neg hf, pidsFor_cons_ne f n r l hf]

theorem buildIdx_nodup (f : Record → String) (l : List Record)
    (ni : List (String × List String)) (h : (dkeys ni).Nodup) :
    (dkeys (buildIdx f l ni)).Nodup := by
  induction l generalizing ni with
  | nil => exact h
  | cons r l ih =>
    apply ih
    unfold addToIndex
    cases dget (f r) ni <;> exact dkeys_dinsert_nodup _ _ _ h

theorem addToIndex_entry (e : String × List String) (k pid0 : String)
    (ni : List (String × List String)) (he : e ∈ addToIndex k pid0 ni)
    (pid : String) (hp : pid ∈ e.2) :
    pid = pid0 ∨ ∃ e0 ∈ ni, pid ∈ e0.2 := by
  unfold addToIndex at he
  cases h : dget k ni with
  | none =>
    rw [h] at he
    rcases mem_of_mem_dinsert e k [pid0] ni he with h2 | h2
    · rw [h2] at hp
      simp at hp
      exact Or.inl hp
    · exact Or.inr ⟨e, h2, hp⟩
  | some old =>
    rw [h] at he
    rcases mem_of_mem_dinsert e k (old ++ [pid0]) ni he with h2 | h2
    · rw [h2] at hp
      simp only [List.mem_append, List.mem_singleton] at hp
      rcases hp with hp | hp
      · exact Or.inr ⟨(k, old), dget_mem k old ni h, hp⟩
      · exact Or.inl hp
    · exact Or.inr ⟨e, h2, hp⟩

theorem buildIdx_entry (f : Record → String) (l : List Record)
    (ni : List (String × List String)) (e : String × List String)
    (he : e ∈ buildIdx f l ni) (pid : String) (hp : pid ∈ e.2) :
    (∃ r ∈ l, r.pid = pid) ∨ ∃ e0 ∈ ni, pid ∈ e0.2 := by
  induction l generalizing ni with
  | nil => exact Or.inr ⟨e, he, hp⟩
  | cons r l ih =>
    rcases ih (addToIndex (f r) r.pid ni) he with h2 | h2
    · obtain ⟨r0, hr0, hpid⟩ := h2
      exact Or.inl ⟨r0, List.mem_cons_of_mem _ hr0, hpid⟩
    · obtain ⟨e0, he0, hp0⟩ := h2
      rcases addToIndex_entry e0 (f r) r.pid ni he0 pid hp0 with h3 | h3
      · exact Or.inl ⟨r, List.mem_cons_self r l, h3.symm⟩
      · exact Or.inr h3

/-! ### The port index built by `update_cache` -/

theorem insertPorts_dget (q pid : String) (toks : List (List Char))
    (pi : List (String × String)) :
    dget q (insertPorts pid toks pi) =
      if q ∈ (toks.map (fun t => String.mk (pyStrip t))).filter (fun t => t ≠ "")
      then some pid else dget q pi := by
  induction toks generalizing pi with
  | nil => simp [insertPorts]
  | cons t ts ih =>
    by_cases ht : String.mk (pyStrip t) = ""
    · show dget q (if String.mk (pyStrip t) = "" then insertPorts pid ts pi
        else insertPorts pid ts (dinsert (String.mk (pyStrip t)) pid pi)) = _
      rw [if_pos ht, ih]
      have : (((t :: ts).map (fun t => String.mk (pyStrip t))).filter
          (fun t => t ≠ "")) =
          ((ts.map (fun t => String.mk (pyStrip t))).filter (fun t => t ≠ "")) := by
        simp [List.filter, ht]
      rw [this]
    · show dget q (if String.mk (pyStrip t) = "" then insertPorts pid ts pi
        else insertPorts pid ts (dinsert (String.mk (pyStrip t)) pid pi)) = _
      rw [if_neg ht, ih]
      rw [dget_dinsert]
      have hcons : (((t :: ts).map (fun t => String.mk (pyStrip t))).filter
          (fun t => t ≠ "")) =
          String.mk (pyStrip t) ::
            ((ts.map (fun t => String.mk (pyStrip t))).filter (fun t => t ≠ "")) := by
        simp [List.filter, ht]
      rw [hcons]
      by_cases hq : q ∈ (ts.map (fun t => String.mk (pyStrip t))).filter (fun t => t ≠ "")
      · rw [if_pos hq, if_pos (List.mem_cons_of_mem _ hq)]
      · by_cases hq2 : String.mk (pyStrip t) = q
        · rw [if_neg hq, if_pos hq2, if_pos (by rw [← hq2]; exact List.mem_cons_self _ _)]
        · rw [if_neg hq, if_neg hq2, if_neg ?_]
          intro hmem
          rcases List.mem_cons.mp hmem with h | h
          · exact hq2 h.symm
          · exact hq h

theorem insertPorts_entry (e : String × String) (pid : String)
    (toks : List (List Char)) (pi : List (String × String))
    (he : e ∈ insertPorts pid toks pi) : e.2 = pid ∨ e ∈ pi := by
  induction toks generalizing pi with
  | nil => exact Or.inr he
  | cons t ts ih =>
    unfold insertPorts at he
    by_cases ht : String.mk (pyStrip t) = ""
    · rw [if_pos ht] at he
      exact ih pi he
    · rw [if_neg ht] at he
      rcases ih _ he with h2 | h2
      · exact Or.inl h2
      · rcases mem_of_mem_dinsert e _ pid pi h2 with h3 | h3
        · rw [h3]
          exact Or.inl rfl
        · exact Or.inr h3

theorem insertPorts_nodup (pid : String) (toks : List (List Char))
    (pi : List (String × String)) (h : (dkeys pi).Nodup) :
    (dkeys (insertPorts pid toks pi)).Nodup := by
  induction toks generalizing pi with
  | nil => exact h
  | cons t ts ih =>
    unfold insertPorts
    by_cases ht : String.mk (pyStrip t) = ""
    · rw [if_pos ht]
      exact ih pi h
    · rw [if_neg ht]
      exact ih _ (dkeys_dinsert_nodup _ _ _ h)

/-- One step of the port-index build: the guard over the raw `ports`
string together with `insertPorts` amounts to a lookup in `portTokens`. -/
theorem portStep_dget (q : String) (r : Record) (pi : List (String × String)) :
    dget q (if r.ports ≠ "" then insertPorts r.pid (pySplit ',' r.ports.data) pi
      else pi) =
      if q ∈ portTokens r.ports then some r.pid else dget q pi := by
  by_cases hp : r.ports = ""
  · rw [if_neg (by simp [hp])]
    have : portTokens r.ports = [] := by
      rw [hp]
      rfl
    rw [this]
    simp
  · rw [if_pos hp]
    rw [insertPorts_dget]
    rfl

theorem buildPi_dget (l : List Record) (pi : List (String × String)) (q : String) :
    dget q (buildPi l pi) =
      ((l.reverse.find? (fun r => decide (q ∈ portTokens r.ports))).map
        Record.pid).or (dget q pi) := by
  induction l generalizing pi with
  | nil => simp [buildPi]
  | cons r l ih =>
    show dget q (buildPi l _) = _
    rw [ih]
    rw [portStep_dget]
    rw [List.reverse_cons, List.find?_append]
    cases hf : l.reverse.find? (fun r => decide (q ∈ portTokens r.ports)) with
    | some r0 => simp
    | none =>
      by_cases hq : q ∈ portTokens r.ports
      · simp [List.find?, hq]
      · simp [List.find?, hq]

theorem buildPi_entry (l : List Record) (pi : List (String × String))
    (e : String × String) (he : e ∈ buildPi l pi) :
    (∃ r ∈ l, e.2 = r.pid) ∨ e ∈ pi := by
  induction l generalizing pi with
  | nil => exact Or.inr he
  | cons r l ih =>
    rcases ih _ he with h2 | h2
    · obtain ⟨r0, hr0, hp⟩ := h2
      exact Or.inl ⟨r0, List.mem_cons_of_mem _ hr0, hp⟩
    · by_cases hp : r.ports = ""
      · rw [if_neg (by simp [hp])] at h2
        exact Or.inr h2
      · rw [if_pos hp] at h2
        rcases insertPorts_entry e r.pid _ pi h2 with h3 | h3
        · exact Or.inl ⟨r, List.mem_cons_self r l, h3⟩
        · exact Or.inr h3

theorem buildPi_nodup (l : List Record) (pi : List (String × String))
    (h : (dkeys pi).Nodup) : (dkeys (buildPi l pi)).Nodup := by
  induction l generalizing pi with
  | nil => exact h
  | cons r l ih =>
    apply ih
    by_cases hp : r.ports = ""
    · rw [if_neg (by simp [hp])]
      exact h
    · rw [if_pos hp]
      exact insertPorts_nodup _ _ _ h

/-! ### The four search phases -/

theorem searchPidLoop_eq (p : List RTok) (entries : List (String × Record))
    (res : List Record) (seen : List String)
    (hdisj : ∀ e ∈ entries, e.1 ∉ seen)
    (hnd : (dkeys entries).Nodup) :
    searchPidLoop p entries res seen =
      (res ++ dvalues (entries.filter (fun e => reSearch p e.1.data)),
       seen ++ dkeys (entries.filter (fun e => reSearch p e.1.data))) := by
  induction entries generalizing res seen with
  | nil => simp [searchPidLoop, dvalues, dkeys]
  | cons e entries ih =>
    obtain ⟨pid, r⟩ := e
    simp only [dkeys, List.map_cons, List.nodup_cons] at hnd
    obtain ⟨hnd1, hnd2⟩ := hnd
    have hdisj' : ∀ e ∈ entries, e.1 ∉ seen :=
      fun e he => hdisj e (List.mem_cons_of_mem _ he)
    by_cases hm : reSearch p pid.data
    · have hseen : pid ∉ seen := hdisj (pid, r) (List.mem_cons_self _ _)
      show (if reSearch p pid.data then
          if pid ∈ seen then searchPidLoop p entries res seen
          else searchPidLoop p entries (res ++ [r]) (seen ++ [pid])
        else searchPidLoop p entries res seen) = _
      rw [if_pos hm, if_neg hseen]
      rw [ih (res ++ [r]) (seen ++ [pid]) ?_ hnd2]
      · have hfc : ((pid, r) :: entries).filter (fun e => reSearch p e.1.data) =
            (pid, r) :: entries.filter (fun e => reSearch p e.1.data) := by
          simp [List.filter, hm]
        rw [hfc]
        simp [dvalues, dkeys]
      · intro e he
        intro hmem
        rcases List.mem_append.mp hmem with h | h
        · exact hdisj' e he h
        · rw [List.mem_singleton] at h
          exact hnd1 (h ▸ List.mem_map.mpr ⟨e, he, rfl⟩)
    · show (if reSearch p pid.data then
          if pid ∈ seen then searchPidLoop p entries res seen
          else searchPidLoop p entries (res ++ [r]) (seen ++ [pid])
        else searchPidLoop p entries res seen) = _
      rw [if_neg hm]
      rw [ih res seen hdisj' hnd2]
      have hfc : ((pid, r) :: entries).filter (fun e => reSearch p e.1.data) =
          entries.filter (fun e => reSearch p e.1.data) := by
        simp [List.filter, hm]
      rw [hfc]

theorem emitPids_spec (data : List (String × Record)) (hwf : wfTable data)
    (pids : List String) (res : List Record) (seen : List String) :
    ∃ E : List Record,
      emitPids data pids res seen = (res ++ E, seen ++ E.map Record.pid) ∧
      (E.map Record.pid).Nodup ∧
      (∀ r ∈ E, r.pid ∉ seen) ∧
      (∀ r : Record, r ∈ E ↔
        r.pid ∈ pids ∧ dget r.pid data = some r ∧ r.pid ∉ seen) := by
  induction pids generalizing res seen with
  | nil =>
    refine ⟨[], by simp [emitPids], by simp, by simp, ?_⟩
    intro r
    simp
  | cons pid rest ih =>
    by_cases hseen : pid ∈ seen
    · obtain ⟨E, h1, h2, h3, h4⟩ := ih res seen
      refine ⟨E, ?_, h2, h3, ?_⟩
      · show emitPids data (pid :: rest) res seen = _
        simp only [emitPids, if_pos hseen]
        exact h1
      · intro r
        rw [h4 r]
        constructor
        · rintro ⟨ha, hb, hc⟩
          exact ⟨List.mem_cons_of_mem _ ha, hb, hc⟩
        · rintro ⟨ha, hb, hc⟩
          rcases List.mem_cons.mp ha with h | h
          · exact absurd (h ▸ hseen) hc
          · exact ⟨h, hb, hc⟩
    · cases hget : dget pid data with
      | none =>
        obtain ⟨E, h1, h2, h3, h4⟩ := ih res seen
        refine ⟨E, ?_, h2, h3, ?_⟩
        · show emitPids data (pid :: rest) res seen = _
          simp only [emitPids, if_neg hseen, hget]
          exact h1
        · intro r
          rw [h4 r]
          constructor
          · rintro ⟨ha, hb, hc⟩
            exact ⟨List.mem_cons_of_mem _ ha, hb, hc⟩
          · rintro ⟨ha, hb, hc⟩
            rcases List.mem_cons.mp ha with h | h
            · rw [h, hget] at hb
              cases hb
            · exact ⟨h, hb, hc⟩
      | some r0 =>
        have hr0pid : r0.pid = pid := hwf.2 (pid, r0) (dget_mem _ _ _ hget)
        obtain ⟨E, h1, h2, h3, h4⟩ := ih (res ++ [r0]) (seen ++ [pid])
        refine ⟨r0 :: E, ?_, ?_, ?_, ?_⟩
        · show emitPids data (pid :: rest) res seen = _
          simp only [emitPids, if_neg hseen, hget]
          rw [h1]
          rw [List.map_cons, hr0pid]
          simp [List.append_assoc]
        · rw [List.map_cons, hr0pid, List.nodup_cons]
          refine ⟨?_, h2⟩
          intro hmem
          obtain ⟨r', hr', hrp⟩ := List.mem_map.mp hmem
          exact h3 r' hr' (by rw [hrp]; exact List.mem_append_right _ (by simp))
        · intro r hr
          rcases List.mem_cons.mp hr with h | h
          · rw [h, hr0pid]
            exact hseen
          · intro hc
            exact h3 r h (List.mem_append_left _ hc)
        · intro r
          constructor
          · intro hr
            rcases List.mem_cons.mp hr with h | h
            · subst h
              exact ⟨by rw [hr0pid]; exact List.mem_cons_self _ _,
                by rw [hr0pid]; exact hget, by rw [hr0pid]; exact hseen⟩
            · obtain ⟨ha, hb, hc⟩ := (h4 r).mp h
              exact ⟨List.mem_cons_of_mem _ ha, hb,
                fun hc2 => hc (List.mem_append_left _ hc2)⟩
          · rintro ⟨ha, hb, hc⟩
            by_cases hrp : r.pid = pid
            · rw [hrp, hget, Option.some_inj] at hb
              rw [← hb]
              exact List.mem_cons_self _ _
            · rcases List.mem_cons.mp ha with h | h
              · exact absurd h hrp
              · refine List.mem_cons_of_mem _ ((h4 r).mpr ⟨h, hb, ?_⟩)
                intro hm
                rcases List.mem_append.mp hm with hm | hm
                · exact hc hm
                · exact hrp (List.mem_singleton.mp hm)

theorem searchIdxLoop_spec (p : List RTok) (data : List (String × Record))
    (hwf : wfTable data) (idx : List (String × List String))
    (res : List Record) (seen : List String) :
    ∃ E : List Record,
      searchIdxLoop p data idx res seen = (res ++ E, seen ++ E.map Record.pid) ∧
      (E.map Record.pid).Nodup ∧
      (∀ r ∈ E, r.pid ∉ seen) ∧
      (∀ r : Record, r ∈ E ↔
        ∃ e ∈ idx, reSearch p e.1.data = true ∧ r.pid ∈ e.2 ∧
          dget r.pid data = some r ∧ r.pid ∉ seen) := by
  induction idx generalizing res seen with
  | nil =>
    refine ⟨[], by simp [searchIdxLoop], by simp, by simp, ?_⟩
    intro r
    simp
  | cons e0 idx ih =>
    obtain ⟨key, pids⟩ := e0
    by_cases hm : reSearch p key.data
    · obtain ⟨E1, g1, g2, g3, g4⟩ := emitPids_spec data hwf pids res seen
      obtain ⟨E2, k1, k2, k3, k4⟩ := ih (res ++ E1) (seen ++ E1.map Record.pid)
      refine ⟨E1 ++ E2, ?_, ?_, ?_, ?_⟩
      · show (if reSearch p key.data then
            match emitPids data pids res seen with
            | (res', seen') => searchIdxLoop p data idx res' seen'
          else searchIdxLoop p data idx res seen) = _
        rw [if_pos hm, g1]
        show searchIdxLoop p data idx (res ++ E1) (seen ++ E1.map Record.pid) = _
        rw [k1]
        simp [List.append_assoc, List.map_append]
      · rw [List.map_append, List.nodup_append]
        refine ⟨g2, k2, ?_⟩
        intro a ha1 ha2
        obtain ⟨r2, hr2, hr2p⟩ := List.mem_map.mp ha2
        exact k3 r2 hr2 (by rw [hr2p]; exact List.mem_append_right _ ha1)
      · intro r hr
        rcases List.mem_append.mp hr with h | h
        · exact g3 r h
        · intro hc
          exact k3 r h (List.mem_append_left _ hc)
      · intro r
        constructor
        · intro hr
          rcases List.mem_append.mp hr with h | h
          · obtain ⟨ha, hb, hc⟩ := (g4 r).mp h
            exact ⟨(key, pids), List.mem_cons_self _ _, hm, ha, hb, hc⟩
          · obtain ⟨e, he, hs, hpid, hget, hseen⟩ := (k4 r).mp h
            refine ⟨e, List.mem_cons_of_mem _ he, hs, hpid, hget, ?_⟩
            intro hc
            exact hseen (List.mem_append_left _ hc)
        · rintro ⟨e, he, hs, hpid, hget, hseen⟩
          rcases List.mem_cons.mp he with h | h
          · subst h
            exact List.mem_append_left _ ((g4 r).mpr ⟨hpid, hget, hseen⟩)
          · by_cases hE1 : r.pid ∈ E1.map Record.pid
            · obtain ⟨r1, hr1, hr1p⟩ := List.mem_map.mp hE1
              obtain ⟨_, hb1, _⟩ := (g4 r1).mp hr1
              rw [hr1p] at hb1
              rw [hget, Option.some_inj] at hb1
              exact List.mem_append_left _ (hb1 ▸ hr1)
            · refine List.mem_append_right _ ((k4 r).mpr ⟨e, h, hs, hpid, hget, ?_⟩)
              intro hc
              rcases List.mem_append.mp hc with hc | hc
              · exact hseen hc
              · exact hE1 hc
    · obtain ⟨E, h1, h2, h3, h4⟩ := ih res seen
      refine ⟨E, ?_, h2, h3, ?_⟩
      · show (if reSearch p key.data then
            match emitPids data pids res seen with
            | (res', seen') => searchIdxLoop p data idx res' seen'
          else searchIdxLoop p data idx res seen) = _
        rw [if_neg hm]
        exact h1
      · intro r
        rw [h4 r]
        constructor
        · rintro ⟨e, he, hs, hpid, hget, hseen⟩
          exact ⟨e, List.mem_cons_of_mem _ he, hs, hpid, hget, hseen⟩
        · rintro ⟨e, he, hs, hpid, hget, hseen⟩
          rcases List.mem_cons.mp he with h | h
          · rw [h] at hs
            exact absurd hs (by simpa using hm)
          · exact ⟨e, h, hs, hpid, hget, hseen⟩

theorem searchPortLoop_spec (p : List RTok) (data : List (String × Record))
    (hwf : wfTable data) (pidx : List (String × String))
    (res : List Record) (seen : List String) :
    ∃ E : List Record,
      searchPortLoop p data pidx res seen = (res ++ E, seen ++ E.map Record.pid) ∧
      (E.map Record.pid).Nodup ∧
      (∀ r ∈ E, r.pid ∉ seen) ∧
      (∀ r : Record, r ∈ E ↔
        ∃ e ∈ pidx, reSearch p e.1.data = true ∧ e.2 = r.pid ∧
          dget r.pid data = some r ∧ r.pid ∉ seen) := by
  induction pidx generalizing res seen with
  | nil =>
    refine ⟨[], by simp [searchPortLoop], by simp, by simp, ?_⟩
    intro r
    simp
  | cons e0 pidx ih =>
    obtain ⟨port, pid⟩ := e0
    show ∃ E, (if reSearch p port.data then
        if pid ∈ seen then searchPortLoop p data pidx res seen
        else
          match dget pid data with
          | some r => searchPortLoop p data pidx (res ++ [r]) (seen ++ [pid])
          | none => searchPortLoop p data pidx res seen
      else searchPortLoop p data pidx res seen) = _ ∧ _
    by_cases hm : reSearch p port.data
    · by_cases hseen : pid ∈ seen
      · obtain ⟨E, h1, h2, h3, h4⟩ := ih res seen
        rw [if_pos hm, if_pos hseen]
        refine ⟨E, h1, h2, h3, ?_⟩
        intro r
        rw [h4 r]
        constructor
        · rintro ⟨e, he, hs, hpid, hget, hsn⟩
          exact ⟨e, List.mem_cons_of_mem _ he, hs, hpid, hget, hsn⟩
        · rintro ⟨e, he, hs, hpid, hget, hsn⟩
          rcases List.mem_cons.mp he with h | h
          · rw [h] at hpid
            exact absurd (hpid ▸ hseen) hsn
          · exact ⟨e, h, hs, hpid, hget, hsn⟩
      · cases hget : dget pid data with
        | none =>
          obtain ⟨E, h1, h2, h3, h4⟩ := ih res seen
          rw [if_pos hm, if_neg hseen]
          refine ⟨E, h1, h2, h3, ?_⟩
          intro r
          rw [h4 r]
          constructor
          · rintro ⟨e, he, hs, hpid, hg, hsn⟩
            exact ⟨e, List.mem_cons_of_mem _ he, hs, hpid, hg, hsn⟩
          · rintro ⟨e, he, hs, hpid, hg, hsn⟩
            rcases List.mem_cons.mp he with h | h
            · rw [h] at hpid
              rw [← hpid, hget] at hg
              cases hg
            · exact ⟨e, h, hs, hpid, hg, hsn⟩
        | some r0 =>
          have hr0pid : r0.pid = pid := hwf.2 (pid, r0) (dget_mem _ _ _ hget)
          obtain ⟨E, h1, h2, h3, h4⟩ := ih (res ++ [r0]) (seen ++ [pid])
          rw [if_pos hm, if_neg hseen]
          refine ⟨r0 :: E, ?_, ?_, ?_, ?_⟩
          · show searchPortLoop p data pidx (res ++ [r0]) (seen ++ [pid]) = _
            rw [h1, List.map_cons, hr0pid]
            simp [List.append_assoc]
          · rw [List.map_cons, hr0pid, List.nodup_cons]
            refine ⟨?_, h2⟩
            intro hmem
            obtain ⟨r', hr', hrp⟩ := List.mem_map.mp hmem
            exact h3 r' hr' (by rw [hrp]; exact List.mem_append_right _ (by simp))
          · intro r hr
            rcases List.mem_cons.mp hr with h | h
            · rw [h, hr0pid]
              exact hseen
            · intro hc
              exact h3 r h (List.mem_append_left _ hc)
          · intro r
            constructor
            · intro hr
              rcases List.mem_cons.mp hr with h | h
              · subst h
                exact ⟨(port, pid), List.mem_cons_self _ _, hm, hr0pid.symm,
                  by rw [hr0pid]; exact hget, by rw [hr0pid]; exact hseen⟩
              · obtain ⟨e, he, hs, hpid, hg, hsn⟩ := (h4 r).mp h
                refine ⟨e, List.mem_cons_of_mem _ he, hs, hpid, hg, ?_⟩
                intro hc
                exact hsn (List.mem_append_left _ hc)
            · rintro ⟨e, he, hs, hpid, hg, hsn⟩
              by_cases hrp : r.pid = pid
              · rw [hrp, hget, Option.some_inj] at hg
                rw [← hg]
                exact List.mem_cons_self _ _
              · rcases List.mem_cons.mp he with h | h
                · rw [h] at hpid
                  exact absurd hpid.symm hrp
                · refine List.mem_cons_of_mem _ ((h4 r).mpr ⟨e, h, hs, hpid, hg, ?_⟩)
                  intro hmm
                  rcases List.mem_append.mp hmm with hmm | hmm
                  · exact hsn hmm
                  · exact hrp (List.mem_singleton.mp hmm)
    · obtain ⟨E, h1, h2, h3, h4⟩ := ih res seen
      rw [if_neg hm]
      refine ⟨E, h1, h2, h3, ?_⟩
      intro r
      rw [h4 r]
      constructor
      · rintro ⟨e, he, hs, hpid, hg, hsn⟩
        exact ⟨e, List.mem_cons_of_mem _ he, hs, hpid, hg, hsn⟩
      · rintro ⟨e, he, hs, hpid, hg, hsn⟩
        rcases List.mem_cons.mp he with h | h
        · rw [h] at hs
          exact absurd hs (by simpa using hm)
        · exact ⟨e, h, hs, hpid, hg, hsn⟩

/-! ### Record-level characterizations of the built indices -/

theorem filter_map_pair (R : List Record) (q : String → Bool) :
    ((R.map (fun r => (r.pid, r))).filter (fun e => q e.1)) =
      (R.filter (fun r => q r.pid)).map (fun r => (r.pid, r)) := by
  induction R with
  | nil => rfl
  | cons r R ih =>
    by_cases h : q r.pid <;> simp [List.filter, h, ih]

theorem dkeys_map_pair (R : List Record) :
    dkeys (R.map fun r => (r.pid, r)) = R.map Record.pid := by
  simp [dkeys, List.map_map]

theorem table_dget_iff (R : List Record) (hnd : (R.map Record.pid).Nodup)
    (r : Record) : dget r.pid (buildPd R []) = some r ↔ r ∈ R := by
  rw [buildPd_of_nodup R hnd]
  constructor
  · intro h
    obtain ⟨r', hr', he⟩ := List.mem_map.mp (dget_mem _ _ _ h)
    have : r' = r := congrArg Prod.snd he
    exact this ▸ hr'
  · intro h
    apply mem_dget
    · rw [dkeys_map_pair]
      exact hnd
    · exact List.mem_map.mpr ⟨r, h, rfl⟩

theorem pid_inj (R : List Record) (hnd : (R.map Record.pid).Nodup)
    (r1 : Record) (h1 : r1 ∈ R) (r2 : Record) (h2 : r2 ∈ R)
    (h : r1.pid = r2.pid) : r1 = r2 :=
  List.inj_on_of_nodup_map hnd h1 h2 h

theorem pid_mem_filter_map (R : List Record) (hnd : (R.map Record.pid).Nodup)
    (q : Record → Bool) (r : Record) (hr : r ∈ R) :
    r.pid ∈ (R.filter q).map Record.pid ↔ q r = true := by
  constructor
  · intro h
    obtain ⟨r', hr', he⟩ := List.mem_map.mp h
    have hr'R : r' ∈ R := List.mem_of_mem_filter hr'
    have heq : r' = r := pid_inj R hnd r' hr'R r hr he
    have := List.of_mem_filter hr'
    rw [heq] at this
    exact this
  · intro h
    exact List.mem_map.mpr ⟨r, List.mem_filter.mpr ⟨hr, h⟩, rfl⟩

theorem pid_mem_map_of_table (E : List Record) (data : List (String × Record))
    (hE : ∀ r ∈ E, dget r.pid data = some r) (r : Record)
    (hr : dget r.pid data = some r) : r.pid ∈ E.map Record.pid ↔ r ∈ E := by
  constructor
  · intro h
    obtain ⟨r', hr', he⟩ := List.mem_map.mp h
    have h2 := hE r' hr'
    rw [he, hr] at h2
    rw [Option.some_inj] at h2
    exact h2 ▸ hr'
  · intro h
    exact List.mem_map.mpr ⟨r, h, rfl⟩

theorem idxEntry_iff (f : Record → String) (R : List Record)
    (hnd : (R.map Record.pid).Nodup) (p : List RTok) (r : Record) :
    (∃ e ∈ buildIdx f R [], reSearch p e.1.data = true ∧ r.pid ∈ e.2 ∧
      dget r.pid (buildPd R []) = some r) ↔
    (r ∈ R ∧ reSearch p (f r).data = true) := by
  constructor
  · rintro ⟨e, he, hs, hpid, hget⟩
    have hrR : r ∈ R := (table_dget_iff R hnd r).mp hget
    have hnk : (dkeys (buildIdx f R [])).Nodup :=
      buildIdx_nodup f R [] (by simp [dkeys])
    have hdg : dget e.1 (buildIdx f R []) = some e.2 := by
      obtain ⟨n, pids⟩ := e
      exact mem_dget _ _ _ hnk he
    rw [buildIdx_dget] at hdg
    simp only [dget] at hdg
    by_cases hemp : pidsFor f e.1 R = []
    · rw [if_pos hemp] at hdg
      cases hdg
    · rw [if_neg hemp] at hdg
      rw [Option.some_inj] at hdg
      rw [← hdg] at hpid
      obtain ⟨r', hr', hrp⟩ := List.mem_map.mp hpid
      have hr'R : r' ∈ R := List.mem_of_mem_filter hr'
      have heq : r' = r := pid_inj R hnd r' hr'R r hrR hrp
      have hfr : f r' = e.1 := by simpa using List.of_mem_filter hr'
      rw [heq] at hfr
      rw [← hfr] at hs
      exact ⟨hrR, hs⟩
  · rintro ⟨hrR, hs⟩
    have hmem : r.pid ∈ pidsFor f (f r) R :=
      List.mem_map.mpr ⟨r, List.mem_filter.mpr ⟨hrR, by simp⟩, rfl⟩
    have hne : pidsFor f (f r) R ≠ [] := by
      intro hh
      rw [hh] at hmem
      simp at hmem
    have hdg : dget (f r) (buildIdx f R []) = some (pidsFor f (f r) R) := by
      rw [buildIdx_dget]
      simp only [dget]
      rw [if_neg hne]
    refine ⟨(f r, pidsFor f (f r) R), dget_mem _ _ _ hdg, hs, hmem,
      (table_dget_iff R hnd r).mpr hrR⟩

theorem portEntry_iff (R : List Record) (hnd : (R.map Record.pid).Nodup)
    (hdisj : portsDisjoint R) (p : List RTok) (r : Record) :
    (∃ e ∈ buildPi R [], reSearch p e.1.data = true ∧ e.2 = r.pid ∧
      dget r.pid (buildPd R []) = some r) ↔
    (r ∈ R ∧ ∃ t ∈ portTokens r.ports, reSearch p t.data = true) := by
  constructor
  · rintro ⟨e, he, hs, hpid, hget⟩
    have hrR : r ∈ R := (table_dget_iff R hnd r).mp hget
    have hnk : (dkeys (buildPi R [])).Nodup := buildPi_nodup R [] (by simp [dkeys])
    have hdg : dget e.1 (buildPi R []) = some e.2 := by
      obtain ⟨q, pid⟩ := e
      exact mem_dget _ _ _ hnk he
    rw [buildPi_dget] at hdg
    cases hf : R.reverse.find? (fun r' => decide (e.1 ∈ portTokens r'.ports)) with
    | none =>
      rw [hf] at hdg
      cases hdg
    | some r' =>
      rw [hf] at hdg
      have hdg2 : r'.pid = e.2 := by
        have h3 : (Option.or (some r'.pid) (dget e.1 ([] : List (String × String)))) =
            some e.2 := by
          simpa using hdg
        simp [dget, Option.or] at h3
        exact h3
      have hr'R : r' ∈ R := List.mem_reverse.mp (List.mem_of_find?_eq_some hf)
      have hpt : e.1 ∈ portTokens r'.ports := by
        have := List.find?_some hf
        simpa using this
      have heq : r' = r := pid_inj R hnd r' hr'R r hrR (by rw [hdg2, hpid])
      rw [heq] at hpt
      exact ⟨hrR, e.1, hpt, hs⟩
  · rintro ⟨hrR, t, ht, hs⟩
    have hsome : (R.reverse.find? (fun r' => decide (t ∈ portTokens r'.ports))).isSome := by
      rw [List.find?_isSome]
      exact ⟨r, List.mem_reverse.mpr hrR, by simpa using ht⟩
    cases hf : R.reverse.find? (fun r' => decide (t ∈ portTokens r'.ports)) with
    | none =>
      rw [hf] at hsome
      cases hsome
    | some r' =>
      have hr'R : r' ∈ R := List.mem_reverse.mp (List.mem_of_find?_eq_some hf)
      have hpt : t ∈ portTokens r'.ports := by
        have := List.find?_some hf
        simpa using this
      have heq : r' = r := hdisj r' hr'R r hrR t hpt ht
      have hdg : dget t (buildPi R []) = some r.pid := by
        rw [buildPi_dget, hf]
        simp [heq]
      exact ⟨(t, r.pid), dget_mem _ _ _ hdg, hs, rfl,
        (table_dget_iff R hnd r).mpr hrR⟩

/-! ### Assembling `search_processes` on a freshly built cache -/

theorem dvalues_map_pair (l : List Record) :
    dvalues (l.map fun r => (r.pid, r)) = l := by
  induction l with
  | nil => rfl
  | cons r l ih =>
    show r :: dvalues (l.map fun r => (r.pid, r)) = r :: l
    rw [ih]

theorem search_processes_eq (c : ProcessCache) (k : String) (hk : ¬ k = "") :
    c.search_processes k =
      (searchIdxLoop (buildPattern (pyLower k)) c.process_data c.username_index
        (searchPortLoop (buildPattern (pyLower k)) c.process_data c.port_index
          (searchIdxLoop (buildPattern (pyLower k)) c.process_data c.name_index
            (searchPidLoop (buildPattern (pyLower k)) c.process_data [] []).1
            (searchPidLoop (buildPattern (pyLower k)) c.process_data [] []).2).1
          (searchIdxLoop (buildPattern (pyLower k)) c.process_data c.name_index
            (searchPidLoop (buildPattern (pyLower k)) c.process_data [] []).1
            (searchPidLoop (buildPattern (pyLower k)) c.process_data [] []).2).2).1
        (searchPortLoop (buildPattern (pyLower k)) c.process_data c.port_index
          (searchIdxLoop (buildPattern (pyLower k)) c.process_data c.name_index
            (searchPidLoop (buildPattern (pyLower k)) c.process_data [] []).1
            (searchPidLoop (buildPattern (pyLower k)) c.process_data [] []).2).1
          (searchIdxLoop (buildPattern (pyLower k)) c.process_data c.name_index
            (searchPidLoop (buildPattern (pyLower k)) c.process_data [] []).1
            (searchPidLoop (buildPattern (pyLower k)) c.process_data [] []).2).2).2).1 := by
  unfold ProcessCache.search_processes
  rw [if_neg hk]

theorem filter_map_pair' (R : List Record) (p : List RTok) :
    ((R.map (fun r => (r.pid, r))).filter (fun e => reSearch p e.1.data)) =
      (R.filter (fun r => reSearch p r.pid.data)).map (fun r => (r.pid, r)) := by
  induction R with
  | nil => rfl
  | cons r R ih =>
    by_cases h : reSearch p r.pid.data <;> simp [List.filter, h, ih]

/-- Master decomposition of `search_processes` on a cache freshly rebuilt
from a record list with pairwise-distinct pids and pairwise-disjoint port
tokens: the output is the pid matches in snapshot order, then a name
block, a port block and a username block, each characterized by
membership, and no pid is emitted twice. -/
theorem search_processes_blocks (c0 : ProcessCache) (R : List Record) (now : ℚ)
    (k : String) (hlock : c0.update_lock = false)
    (hnd : (R.map Record.pid).Nodup) (hdisj : portsDisjoint R) (hk : ¬ k = "") :
    ∃ B2 B3 B4 : List Record,
      (c0.update_cache R now).search_processes k =
        R.filter (fun r => keywordMatch k r.pid) ++ B2 ++ B3 ++ B4 ∧
      (∀ r : Record, r ∈ B2 ↔ r ∈ R ∧ keywordMatch k r.name = true ∧
        keywordMatch k r.pid = false) ∧
      (∀ r : Record, r ∈ B3 ↔ r ∈ R ∧
        (∃ t ∈ portTokens r.ports, keywordMatch k t = true) ∧
        keywordMatch k r.pid = false ∧ keywordMatch k r.name = false) ∧
      (∀ r : Record, r ∈ B4 ↔ r ∈ R ∧ keywordMatch k r.username = true ∧
        keywordMatch k r.pid = false ∧ keywordMatch k r.name = false ∧
        ¬ ∃ t ∈ portTokens r.ports, keywordMatch k t = true) ∧
      (((c0.update_cache R now).search_processes k).map Record.pid).Nodup := by
  have htab : buildPd R [] = R.map (fun r => (r.pid, r)) := buildPd_of_nodup R hnd
  have hwf : wfTable (buildPd R []) := buildPd_wf R
  have hph1 : searchPidLoop (buildPattern (pyLower k)) (buildPd R []) [] [] =
      (R.filter (fun r => keywordMatch k r.pid),
        (R.filter (fun r => keywordMatch k r.pid)).map Record.pid) := by
    rw [htab, searchPidLoop_eq (buildPattern (pyLower k))
      (R.map (fun r => (r.pid, r))) [] [] (by simp)
      (by rw [dkeys_map_pair]; exact hnd), filter_map_pair', dvalues_map_pair,
      dkeys_map_pair]
    rfl
  obtain ⟨E2, k21, k22, k23, k24⟩ := searchIdxLoop_spec (buildPattern (pyLower k))
    (buildPd R []) hwf (buildIdx Record.name R [])
    (R.filter (fun r => keywordMatch k r.pid))
    ((R.filter (fun r => keywordMatch k r.pid)).map Record.pid)
  obtain ⟨E3, k31, k32, k33, k34⟩ := searchPortLoop_spec (buildPattern (pyLower k))
    (buildPd R []) hwf (buildPi R [])
    (R.filter (fun r => keywordMatch k r.pid) ++ E2)
    ((R.filter (fun r => keywordMatch k r.pid)).map Record.pid ++
      E2.map Record.pid)
  obtain ⟨E4, k41, k42, k43, k44⟩ := searchIdxLoop_spec (buildPattern (pyLower k))
    (buildPd R []) hwf (buildIdx Record.username R [])
    ((R.filter (fun r => keywordMatch k r.pid) ++ E2) ++ E3)
    (((R.filter (fun r => keywordMatch k r.pid)).map Record.pid ++
      E2.map Record.pid) ++ E3.map Record.pid)
  have hcd : (c0.update_cache R now).process_data = buildPd R [] := by
    rw [update_cache_eq c0 R now hlock]
  have hcn : (c0.update_cache R now).name_index = buildIdx Record.name R [] := by
    rw [update_cache_eq c0 R now hlock]
  have hcp : (c0.update_cache R now).port_index = buildPi R [] := by
    rw [update_cache_eq c0 R now hlock]
  have hcu : (c0.update_cache R now).username_index =
      buildIdx Record.username R [] := by
    rw [update_cache_eq c0 R now hlock]
  have e1a : (searchPidLoop (buildPattern (pyLower k)) (buildPd R []) [] []).1 =
      R.filter (fun r => keywordMatch k r.pid) := by rw [hph1]
  have e1b : (searchPidLoop (buildPattern (pyLower k)) (buildPd R []) [] []).2 =
      (R.filter (fun r => keywordMatch k r.pid)).map Record.pid := by rw [hph1]
  have hout : (c0.update_cache R now).search_processes k =
      ((R.filter (fun r => keywordMatch k r.pid) ++ E2) ++ E3) ++ E4 := by
    rw [search_processes_eq _ k hk, hcd, hcn, hcp, hcu, e1a, e1b]
    have e2a : (searchIdxLoop (buildPattern (pyLower k)) (buildPd R [])
        (buildIdx Record.name R []) (R.filter (fun r => keywordMatch k r.pid))
        ((R.filter (fun r => keywordMatch k r.pid)).map Record.pid)).1 =
        R.filter (fun r => keywordMatch k r.pid) ++ E2 := by rw [k21]
    have e2b : (searchIdxLoop (buildPattern (pyLower k)) (buildPd R [])
        (buildIdx Record.name R []) (R.filter (fun r => keywordMatch k r.pid))
        ((R.filter (fun r => keywordMatch k r.pid)).map Record.pid)).2 =
        (R.filter (fun r => keywordMatch k r.pid)).map Record.pid ++
          E2.map Record.pid := by rw [k21]
    rw [e2a, e2b]
    have e3a : (searchPortLoop (buildPattern (pyLower k)) (buildPd R [])
        (buildPi R []) (R.filter (fun r => keywordMatch k r.pid) ++ E2)
        ((R.filter (fun r => keywordMatch k r.pid)).map Record.pid ++
          E2.map Record.pid)).1 =
        (R.filter (fun r => keywordMatch k r.pid) ++ E2) ++ E3 := by rw [k31]
    have e3b : (searchPortLoop (buildPattern (pyLower k)) (buildPd R [])
        (buildPi R []) (R.filter (fun r => keywordMatch k r.pid) ++ E2)
        ((R.filter (fun r => keywordMatch k r.pid)).map Record.pid ++
          E2.map Record.pid)).2 =
        ((R.filter (fun r => keywordMatch k r.pid)).map Record.pid ++
          E2.map Record.pid) ++ E3.map Record.pid := by rw [k31]
    rw [e3a, e3b]
    rw [k41]
  have hB2 : ∀ r : Record, r ∈ E2 ↔ r ∈ R ∧ keywordMatch k r.name = true ∧
      keywordMatch k r.pid = false := by
    intro r
    rw [k24 r]
    constructor
    · rintro ⟨e, he, hs, hpid, hget, hseen⟩
      have h2 := (idxEntry_iff Record.name R hnd (buildPattern (pyLower k)) r).mp
        ⟨e, he, hs, hpid, hget⟩
      refine ⟨h2.1, h2.2, ?_⟩
      by_cases hq : keywordMatch k r.pid = true
      · exact absurd ((pid_mem_filter_map R hnd _ r h2.1).mpr hq) hseen
      · simpa using hq
    · rintro ⟨hrR, hname, hpidf⟩
      obtain ⟨e, he, hs, hpid, hget⟩ :=
        (idxEntry_iff Record.name R hnd (buildPattern (pyLower k)) r).mpr
          ⟨hrR, hname⟩
      refine ⟨e, he, hs, hpid, hget, ?_⟩
      intro hmem
      have h3 := (pid_mem_filter_map R hnd _ r hrR).mp hmem
      rw [hpidf] at h3
      cases h3
  have hE2get : ∀ r ∈ E2, dget r.pid (buildPd R []) = some r := by
    intro r hr
    obtain ⟨e, he, hs, hpid, hget, hseen⟩ := (k24 r).mp hr
    exact hget
  have hB3 : ∀ r : Record, r ∈ E3 ↔ r ∈ R ∧
      (∃ t ∈ portTokens r.ports, keywordMatch k t = true) ∧
      keywordMatch k r.pid = false ∧ keywordMatch k r.name = false := by
    intro r
    rw [k34 r]
    constructor
    · rintro ⟨e, he, hs, hpid, hget, hseen⟩
      obtain ⟨hrR, ht⟩ :=
        (portEntry_iff R hnd hdisj (buildPattern (pyLower k)) r).mp
          ⟨e, he, hs, hpid, hget⟩
      have hnotseen1 : r.pid ∉
          (R.filter (fun r => keywordMatch k r.pid)).map Record.pid :=
        fun h => hseen (List.mem_append_left _ h)
      have hnotE2 : r.pid ∉ E2.map Record.pid :=
        fun h => hseen (List.mem_append_right _ h)
      have hpidf : keywordMatch k r.pid = false := by
        by_cases hq : keywordMatch k r.pid = true
        · exact absurd ((pid_mem_filter_map R hnd _ r hrR).mpr hq) hnotseen1
        · simpa using hq
      have hrE2 : r ∉ E2 := fun h => hnotE2 (List.mem_map.mpr ⟨r, h, rfl⟩)
      have hnamef : keywordMatch k r.name = false := by
        by_cases hq : keywordMatch k r.name = true
        · exact absurd ((hB2 r).mpr ⟨hrR, hq, hpidf⟩) hrE2
        · simpa using hq
      exact ⟨hrR, ht, hpidf, hnamef⟩
    · rintro ⟨hrR, ht, hpidf, hnamef⟩
      obtain ⟨e, he, hs, hpid, hget⟩ :=
        (portEntry_iff R hnd hdisj (buildPattern (pyLower k)) r).mpr ⟨hrR, ht⟩
      refine ⟨e, he, hs, hpid, hget, ?_⟩
      intro hmem
      rcases List.mem_append.mp hmem with h | h
      · have h3 := (pid_mem_filter_map R hnd _ r hrR).mp h
        rw [hpidf] at h3
        cases h3
      · have hrtab : dget r.pid (buildPd R []) = some r :=
          (table_dget_iff R hnd r).mpr hrR
        have h4 := (pid_mem_map_of_table E2 (buildPd R []) hE2get r hrtab).mp h
        obtain ⟨_, hname, _⟩ := (hB2 r).mp h4
        rw [hnamef] at hname
        cases hname
  have hE3get : ∀ r ∈ E3, dget r.pid (buildPd R []) = some r := by
    intro r hr
    obtain ⟨e, he, hs, hpid, hget, hseen⟩ := (k34 r).mp hr
    exact hget
  have hB4 : ∀ r : Record, r ∈ E4 ↔ r ∈ R ∧ keywordMatch k r.username = true ∧
      keywordMatch k r.pid = false ∧ keywordMatch k r.name = false ∧
      ¬ ∃ t ∈ portTokens r.ports, keywordMatch k t = true := by
    intro r
    rw [k44 r]
    constructor
    · rintro ⟨e, he, hs, hpid, hget, hseen⟩
      obtain ⟨hrR, huser⟩ :=
        (idxEntry_iff Record.username R hnd (buildPattern (pyLower k)) r).mp
          ⟨e, he, hs, hpid, hget⟩
      have hnotseen1 : r.pid ∉
          (R.filter (fun r => keywordMatch k r.pid)).map Record.pid :=
        fun h => hseen (List.mem_append_left _ (List.mem_append_left _ h))
      have hnotE2 : r.pid ∉ E2.map Record.pid :=
        fun h => hseen (List.mem_append_left _ (List.mem_append_right _ h))
      have hnotE3 : r.pid ∉ E3.map Record.pid :=
        fun h => hseen (List.mem_append_right _ h)
      have hpidf : keywordMatch k r.pid = false := by
        by_cases hq : keywordMatch k r.pid = true
        · exact absurd ((pid_mem_filter_map R hnd _ r hrR).mpr hq) hnotseen1
        · simpa using hq
      have hrE2 : r ∉ E2 := fun h => hnotE2 (List.mem_map.mpr ⟨r, h, rfl⟩)
      have hrE3 : r ∉ E3 := fun h => hnotE3 (List.mem_map.mpr ⟨r, h, rfl⟩)
      have hnamef : keywordMatch k r.name = false := by
        by_cases hq : keywordMatch k r.name = true
        · exact absurd ((hB2 r).mpr ⟨hrR, hq, hpidf⟩) hrE2
        · simpa using hq
      have hportf : ¬ ∃ t ∈ portTokens r.ports, keywordMatch k t = true := by
        intro hq
        exact hrE3 ((hB3 r).mpr ⟨hrR, hq, hpidf, hnamef⟩)
      exact ⟨hrR, huser, hpidf, hnamef, hportf⟩
    · rintro ⟨hrR, huser, hpidf, hnamef, hportf⟩
      obtain ⟨e, he, hs, hpid, hget⟩ :=
        (idxEntry_iff Record.username R hnd (buildPattern (pyLower k)) r).mpr
          ⟨hrR, huser⟩
      refine ⟨e, he, hs, hpid, hget, ?_⟩
      intro hmem
      have hrtab : dget r.pid (buildPd R []) = some r :=
        (table_dget_iff R hnd r).mpr hrR
      rcases List.mem_append.mp hmem with h | h
      · rcases List.mem_append.mp h with h2 | h2
        · have h3 := (pid_mem_filter_map R hnd _ r hrR).mp h2
          rw [hpidf] at h3
          cases h3
        · have h4 := (pid_mem_map_of_table E2 (buildPd R []) hE2get r hrtab).mp h2
          obtain ⟨_, hname, _⟩ := (hB2 r).mp h4
          rw [hnamef] at hname
          cases hname
      · have h4 := (pid_mem_map_of_table E3 (buildPd R []) hE3get r hrtab).mp h
        obtain ⟨_, hport, _⟩ := (hB3 r).mp h4
        exact hportf hport
  have hB1nd : ((R.filter (fun r => keywordMatch k r.pid)).map Record.pid).Nodup :=
    ((List.filter_sublist R).map Record.pid).nodup hnd
  have hnodupAll :
      (((c0.update_cache R now).search_processes k).map Record.pid).Nodup := by
    rw [hout]
    rw [List.map_append, List.map_append, List.map_append]
    rw [List.nodup_append]
    refine ⟨?_, k42, ?_⟩
    · rw [List.nodup_append]
      refine ⟨?_, k32, ?_⟩
      · rw [List.nodup_append]
        refine ⟨hB1nd, k22, ?_⟩
        intro a ha1 ha2
        obtain ⟨r2, hr2, hr2p⟩ := List.mem_map.mp ha2
        exact k23 r2 hr2 (hr2p ▸ ha1)
      · intro a ha1 ha2
        obtain ⟨r3, hr3, hr3p⟩ := List.mem_map.mp ha2
        exact k33 r3 hr3 (hr3p ▸ ha1)
    · intro a ha1 ha2
      obtain ⟨r4, hr4, hr4p⟩ := List.mem_map.mp ha2
      exact k43 r4 hr4 (hr4p ▸ ha1)
  exact ⟨E2, E3, E4, hout, hB2, hB3, hB4, hnodupAll⟩

/-! ### Derived search facts -/

theorem search_empty (c : ProcessCache) :
    c.search_processes "" = dvalues c.process_data := rfl

theorem update_values (R : List Record) (hnd : (R.map Record.pid).Nodup) :
    dvalues (buildPd R []) = R := by
  rw [buildPd_of_nodup R hnd, dvalues_map_pair]

theorem reSearch_star (s : List Char) : reSearch [RTok.star] s = true := by
  cases s <;> rfl

theorem map_pid_dvalues (d : List (String × Record))
    (hkeyed : ∀ e ∈ d, e.2.pid = e.1) :
    (dvalues d).map Record.pid = dkeys d := by
  induction d with
  | nil => rfl
  | cons e d ih =>
    show e.2.pid :: (dvalues d).map Record.pid = e.1 :: dkeys d
    rw [hkeyed e (List.mem_cons_self _ _),
      ih (fun e' he' => hkeyed e' (List.mem_cons_of_mem _ he'))]

theorem mem_dkeys_of_dget (d : List (String × Record)) (q : String) (r : Record)
    (h : dget q d = some r) : q ∈ dkeys d := by
  by_cases hq : q ∈ dkeys d
  · exact hq
  · rw [← dget_eq_none_iff] at hq
    rw [hq] at h
    cases h

/-- `search("*")` on a freshly rebuilt snapshot returns every record in
insertion order: the pid phase already emits everything, and the remaining
phases only consider pids that are by then in `seen_pids`. -/
theorem search_star (c0 : ProcessCache) (R : List Record) (now : ℚ)
    (hlock : c0.update_lock = false) (hnd : (R.map Record.pid).Nodup) :
    (c0.update_cache R now).search_processes "*" = R := by
  have hp : buildPattern (pyLower "*") = [RTok.star] := rfl
  have htab : buildPd R [] = R.map (fun r => (r.pid, r)) := buildPd_of_nodup R hnd
  have hwf : wfTable (buildPd R []) := buildPd_wf R
  have hph1 : searchPidLoop (buildPattern (pyLower "*")) (buildPd R []) [] [] =
      (R, R.map Record.pid) := by
    rw [hp, searchPidLoop_eq [RTok.star] (buildPd R []) [] []
      (by simp) hwf.1]
    have hfil : (buildPd R []).filter
        (fun e => reSearch [RTok.star] e.1.data) = buildPd R [] := by
      rw [List.filter_eq_self]
      intro e _
      exact reSearch_star _
    rw [hfil]
    rw [htab, dvalues_map_pair, dkeys_map_pair]
    simp
  obtain ⟨E2, k21, k22, k23, k24⟩ := searchIdxLoop_spec
    (buildPattern (pyLower "*")) (buildPd R []) hwf (buildIdx Record.name R [])
    R (R.map Record.pid)
  have hE2 : E2 = [] := by
    rw [List.eq_nil_iff_forall_not_mem]
    intro r hr
    obtain ⟨e, he, hs, hpid, hget, hseen⟩ := (k24 r).mp hr
    exact hseen (List.mem_map.mpr ⟨r, (table_dget_iff R hnd r).mp hget, rfl⟩)
  subst hE2
  obtain ⟨E3, k31, k32, k33, k34⟩ := searchPortLoop_spec
    (buildPattern (pyLower "*")) (buildPd R []) hwf (buildPi R [])
    (R ++ []) (R.map Record.pid ++ List.map Record.pid [])
  have hE3 : E3 = [] := by
    rw [List.eq_nil_iff_forall_not_mem]
    intro r hr
    obtain ⟨e, he, hs, hpid, hget, hseen⟩ := (k34 r).mp hr
    exact hseen (List.mem_append_left _
      (List.mem_map.mpr ⟨r, (table_dget_iff R hnd r).mp hget, rfl⟩))
  subst hE3
  obtain ⟨E4, k41, k42, k43, k44⟩ := searchIdxLoop_spec
    (buildPattern (pyLower "*")) (buildPd R []) hwf
    (buildIdx Record.username R [])
    ((R ++ []) ++ []) ((R.map Record.pid ++ List.map Record.pid []) ++
      List.map Record.pid [])
  have hE4 : E4 = [] := by
    rw [List.eq_nil_iff_forall_not_mem]
    intro r hr
    obtain ⟨e, he, hs, hpid, hget, hseen⟩ := (k44 r).mp hr
    exact hseen (List.mem_append_left _ (List.mem_append_left _
      (List.mem_map.mpr ⟨r, (table_dget_iff R hnd r).mp hget, rfl⟩)))
  subst hE4
  have hcd : (c0.update_cache R now).process_data = buildPd R [] := by
    rw [update_cache_eq c0 R now hlock]
  have hcn : (c0.update_cache R now).name_index = buildIdx Record.name R [] := by
    rw [update_cache_eq c0 R now hlock]
  have hcp : (c0.update_cache R now).port_index = buildPi R [] := by
    rw [update_cache_eq c0 R now hlock]
  have hcu : (c0.update_cache R now).username_index =
      buildIdx Record.username R [] := by
    rw [update_cache_eq c0 R now hlock]
  rw [search_processes_eq _ "*" (by decide), hcd, hcn, hcp, hcu]
  have e1a : (searchPidLoop (buildPattern (pyLower "*")) (buildPd R []) [] []).1 =
      R := by rw [hph1]
  have e1b : (searchPidLoop (buildPattern (pyLower "*")) (buildPd R []) [] []).2 =
      R.map Record.pid := by rw [hph1]
  rw [e1a, e1b]
  have e2a : (searchIdxLoop (buildPattern (pyLower "*")) (buildPd R [])
      (buildIdx Record.name R []) R (R.map Record.pid)).1 = R ++ [] := by rw [k21]
  have e2b : (searchIdxLoop (buildPattern (pyLower "*")) (buildPd R [])
      (buildIdx Record.name R []) R (R.map Record.pid)).2 =
      R.map Record.pid ++ List.map Record.pid [] := by rw [k21]
  rw [e2a, e2b]
  have e3a : (searchPortLoop (buildPattern (pyLower "*")) (buildPd R [])
      (buildPi R []) (R ++ []) (R.map Record.pid ++ List.map Record.pid [])).1 =
      (R ++ []) ++ [] := by rw [k31]
  have e3b : (searchPortLoop (buildPattern (pyLower "*")) (buildPd R [])
      (buildPi R []) (R ++ []) (R.map Record.pid ++ List.map Record.pid [])).2 =
      (R.map Record.pid ++ List.map Record.pid []) ++ List.map Record.pid [] := by
    rw [k31]
  rw [e3a, e3b, k41]
  simp

/-- With a well-formed record table, no pid is emitted twice by
`search_processes`, whatever the indices and the keyword. -/
theorem search_nodup (c : ProcessCache) (k : String)
    (hwf : wfTable c.process_data) :
    ((c.search_processes k).map Record.pid).Nodup := by
  by_cases hk : k = ""
  · subst hk
    rw [search_empty, map_pid_dvalues _ hwf.2]
    exact hwf.1
  · have hph1 := searchPidLoop_eq (buildPattern (pyLower k)) c.process_data [] []
      (by simp) hwf.1
    obtain ⟨E2, k21, k22, k23, k24⟩ := searchIdxLoop_spec
      (buildPattern (pyLower k)) c.process_data hwf c.name_index
      ([] ++ dvalues (c.process_data.filter
        (fun e => reSearch (buildPattern (pyLower k)) e.1.data)))
      ([] ++ dkeys (c.process_data.filter
        (fun e => reSearch (buildPattern (pyLower k)) e.1.data)))
    obtain ⟨E3, k31, k32, k33, k34⟩ := searchPortLoop_spec
      (buildPattern (pyLower k)) c.process_data hwf c.port_index
      (([] ++ dvalues (c.process_data.filter
        (fun e => reSearch (buildPattern (pyLower k)) e.1.data))) ++ E2)
      (([] ++ dkeys (c.process_data.filter
        (fun e => reSearch (buildPattern (pyLower k)) e.1.data))) ++
        E2.map Record.pid)
    obtain ⟨E4, k41, k42, k43, k44⟩ := searchIdxLoop_spec
      (buildPattern (pyLower k)) c.process_data hwf c.username_index
      ((([] ++ dvalues (c.process_data.filter
        (fun e => reSearch (buildPattern (pyLower k)) e.1.data))) ++ E2) ++ E3)
      ((([] ++ dkeys (c.process_data.filter
        (fun e => reSearch (buildPattern (pyLower k)) e.1.data))) ++
        E2.map Record.pid) ++ E3.map Record.pid)
    have hfkeyed : ∀ e ∈ c.process_data.filter
        (fun e => reSearch (buildPattern (pyLower k)) e.1.data), e.2.pid = e.1 :=
      fun e he => hwf.2 e (List.mem_of_mem_filter he)
    have hmapkeys : (dvalues (c.process_data.filter
        (fun e => reSearch (buildPattern (pyLower k)) e.1.data))).map Record.pid =
        dkeys (c.process_data.filter
          (fun e => reSearch (buildPattern (pyLower k)) e.1.data)) :=
      map_pid_dvalues _ hfkeyed
    have hout : c.search_processes k =
        ((([] ++ dvalues (c.process_data.filter
          (fun e => reSearch (buildPattern (pyLower k)) e.1.data))) ++ E2) ++ E3)
          ++ E4 := by
      rw [search_processes_eq c k hk]
      have e1a : (searchPidLoop (buildPattern (pyLower k)) c.process_data [] []).1 =
          [] ++ dvalues (c.process_data.filter
            (fun e => reSearch (buildPattern (pyLower k)) e.1.data)) := by
        rw [hph1]
      have e1b : (searchPidLoop (buildPattern (pyLower k)) c.process_data [] []).2 =
          [] ++ dkeys (c.process_data.filter
            (fun e => reSearch (buildPattern (pyLower k)) e.1.data)) := by
        rw [hph1]
      rw [e1a, e1b]
      have e2a := congrArg Prod.fst k21
      have e2b := congrArg Prod.snd k21
      rw [e2a, e2b]
      have e3a := congrArg Prod.fst k31
      have e3b := congrArg Prod.snd k31
      rw [e3a, e3b]
      rw [k41]
    rw [hout]
    rw [List.map_append, List.map_append, List.map_append, List.map_append,
      List.map_nil, List.nil_append]
    have hkeysnd : (dkeys (c.process_data.filter
        (fun e => reSearch (buildPattern (pyLower k)) e.1.data))).Nodup :=
      ((List.filter_sublist c.process_data).map Prod.fst).nodup hwf.1
    rw [List.nodup_append]
    refine ⟨?_, k42, ?_⟩
    · rw [List.nodup_append]
      refine ⟨?_, k32, ?_⟩
      · rw [List.nodup_append]
        refine ⟨by rw [hmapkeys]; exact hkeysnd, k22, ?_⟩
        · intro a ha1 ha2
          obtain ⟨r2, hr2, hr2p⟩ := List.mem_map.mp ha2
          refine k23 r2 hr2 ?_
          rw [hr2p]
          simpa [hmapkeys] using ha1
      · intro a ha1 ha2
        obtain ⟨r3, hr3, hr3p⟩ := List.mem_map.mp ha2
        refine k33 r3 hr3 ?_
        rw [hr3p]
        rcases List.mem_append.mp ha1 with h | h
        · exact List.mem_append_left _ (by simpa [hmapkeys] using h)
        · exact List.mem_append_right _ h
    · intro a ha1 ha2
      obtain ⟨r4, hr4, hr4p⟩ := List.mem_map.mp ha2
      refine k43 r4 hr4 ?_
      rw [hr4p]
      rcases List.mem_append.mp ha1 with h | h
      · rcases List.mem_append.mp h with h2 | h2
        · exact List.mem_append_left _ (List.mem_append_left _
            (by simpa [hmapkeys] using h2))
        · exact List.mem_append_left _ (List.mem_append_right _ h2)
      · exact List.mem_append_right _ h

/-- Every record returned by `search_processes` is stored in the record
table under its own pid (given a well-formed table). -/
theorem search_mem_table (c : ProcessCache) (k : String)
    (hwf : wfTable c.process_data) (r : Record)
    (hr : r ∈ c.search_processes k) :
    dget r.pid c.process_data = some r := by
  by_cases hk : k = ""
  · subst hk
    rw [search_empty] at hr
    exact dvalues_wf_dget _ hwf r hr
  · have hph1 := searchPidLoop_eq (buildPattern (pyLower k)) c.process_data [] []
      (by simp) hwf.1
    obtain ⟨E2, k21, k22, k23, k24⟩ := searchIdxLoop_spec
      (buildPattern (pyLower k)) c.process_data hwf c.name_index
      ([] ++ dvalues (c.process_data.filter
        (fun e => reSearch (buildPattern (pyLower k)) e.1.data)))
      ([] ++ dkeys (c.process_data.filter
        (fun e => reSearch (buildPattern (pyLower k)) e.1.data)))
    obtain ⟨E3, k31, k32, k33, k34⟩ := searchPortLoop_spec
      (buildPattern (pyLower k)) c.process_data hwf c.port_index
      (([] ++ dvalues (c.process_data.filter
        (fun e => reSearch (buildPattern (pyLower k)) e.1.data))) ++ E2)
      (([] ++ dkeys (c.process_data.filter
        (fun e => reSearch (buildPattern (pyLower k)) e.1.data))) ++
        E2.map Record.pid)
    obtain ⟨E4, k41, k42, k43, k44⟩ := searchIdxLoop_spec
      (buildPattern (pyLower k)) c.process_data hwf c.username_index
      ((([] ++ dvalues (c.process_data.filter
        (fun e => reSearch (buildPattern (pyLower k)) e.1.data))) ++ E2) ++ E3)
      ((([] ++ dkeys (c.process_data.filter
        (fun e => reSearch (buildPattern (pyLower k)) e.1.data))) ++
        E2.map Record.pid) ++ E3.map Record.pid)
    have hout : c.search_processes k =
        ((([] ++ dvalues (c.process_data.filter
          (fun e => reSearch (buildPattern (pyLower k)) e.1.data))) ++ E2) ++ E3)
          ++ E4 := by
      rw [search_processes_eq c k hk]
      have e1a : (searchPidLoop (buildPattern (pyLower k)) c.process_data [] []).1 =
          [] ++ dvalues (c.process_data.filter
            (fun e => reSearch (buildPattern (pyLower k)) e.1.data)) := by
        rw [hph1]
      have e1b : (searchPidLoop (buildPattern (pyLower k)) c.process_data [] []).2 =
          [] ++ dkeys (c.process_data.filter
            (fun e => reSearch (buildPattern (pyLower k)) e.1.data)) := by
        rw [hph1]
      rw [e1a, e1b]
      have e2a := congrArg Prod.fst k21
      have e2b := congrArg Prod.snd k21
      rw [e2a, e2b]
      have e3a := congrArg Prod.fst k31
      have e3b := congrArg Prod.snd k31
      rw [e3a, e3b]
      rw [k41]
    rw [hout] at hr
    rcases List.mem_append.mp hr with h | h
    · rcases List.mem_append.mp h with h2 | h2
      · rcases List.mem_append.mp h2 with h3 | h3
        · rw [List.nil_append] at h3
          obtain ⟨e, he, hv⟩ := List.mem_map.mp h3
          have heM := List.mem_of_mem_filter he
          have hkeyed := hwf.2 e heM
          have : e = (r.pid, r) := by
            obtain ⟨q, v⟩ := e
            simp only at hv
            subst hv
            simp only at hkeyed
            rw [hkeyed]
          rw [this] at heM
          exact mem_dget _ _ _ hwf.1 heM
        · obtain ⟨e, he, hs, hpid, hget, hseen⟩ := (k24 r).mp h3
          exact hget
      · obtain ⟨e, he, hs, hpid, hget, hseen⟩ := (k34 r).mp h2
        exact hget
    · obtain ⟨e, he, hs, hpid, hget, hseen⟩ := (k44 r).mp h
      exact hget

/-! ### Declarative semantics of the compiled matcher -/

theorem reMatch_iff (s : List Char) :
    ∀ p, reMatch p s = true ↔ ∃ t u, s = t ++ u ∧ DenExact p t := by
  induction s with
  | nil =>
    intro p
    induction p with
    | nil =>
      constructor
      · intro _
        exact ⟨[], [], rfl, rfl⟩
      · intro _
        rfl
    | cons tok p ihp =>
      cases tok with
      | lit c =>
        rw [reMatch_lit_nil]
        constructor
        · intro h
          cases h
        · rintro ⟨t, u, he, hd⟩
          have he' := he.symm
          rw [List.append_eq_nil] at he'
          rw [he'.1] at hd
          obtain ⟨d, t', habs, _⟩ := hd
          cases habs
      | star =>
        rw [reMatch_star_nil, ihp]
        constructor
        · rintro ⟨t, u, he, hd⟩
          have he' := he.symm
          rw [List.append_eq_nil] at he'
          exact ⟨[], [], rfl, [], [], rfl, by simp, he'.1 ▸ hd⟩
        · rintro ⟨t, u, he, hd⟩
          have he' := he.symm
          rw [List.append_eq_nil] at he'
          rw [he'.1] at hd
          obtain ⟨g, t', hgt, _, hd'⟩ := hd
          have hgt' := hgt.symm
          rw [List.append_eq_nil] at hgt'
          exact ⟨[], [], rfl, hgt'.2 ▸ hd'⟩
  | cons d s ihs =>
    intro p
    induction p with
    | nil =>
      constructor
      · intro _
        exact ⟨[], d :: s, rfl, rfl⟩
      · intro _
        exact reMatch_nil_pat _
    | cons tok p ihp =>
      cases tok with
      | lit c =>
        rw [reMatch_lit_cons]
        constructor
        · intro h
          rw [Bool.and_eq_true] at h
          obtain ⟨t', u, he, hd⟩ := (ihs p).mp h.2
          exact ⟨d :: t', u, by rw [he, List.cons_append], d, t', rfl, h.1, hd⟩
        · rintro ⟨t, u, he, d0, t0, ht, hle, hd⟩
          rw [ht] at he
          rw [List.cons_append, List.cons.injEq] at he
          rw [Bool.and_eq_true]
          exact ⟨he.1 ▸ hle, (ihs p).mpr ⟨t0, u, he.2, hd⟩⟩
      | star =>
        rw [reMatch_star_cons]
        constructor
        · intro h
          rw [Bool.or_eq_true] at h
          rcases h with h | h
          · obtain ⟨t, u, he, hd⟩ := ihp.mp h
            exact ⟨t, u, he, [], t, rfl, by simp, hd⟩
          · rw [Bool.and_eq_true] at h
            obtain ⟨t, u, he, g, t', hgt, hnl, hd⟩ := (ihs (RTok.star :: p)).mp h.2
            refine ⟨d :: t, u, by rw [he, List.cons_append], d :: g, t',
              by rw [hgt, List.cons_append], ?_, hd⟩
            intro hmem
            rcases List.mem_cons.mp hmem with hh | hh
            · rw [hh] at h
              simp at h
            · exact hnl hh
        · rintro ⟨t, u, he, g, t', hgt, hnl, hd⟩
          rw [Bool.or_eq_true]
          cases g with
          | nil =>
            rw [List.nil_append] at hgt
            rw [← hgt] at hd
            exact Or.inl (ihp.mpr ⟨t, u, he, hd⟩)
          | cons g0 g' =>
            rw [hgt] at he
            rw [List.cons_append, List.cons_append, List.cons.injEq] at he
            right
            rw [Bool.and_eq_true]
            constructor
            · have hne : g0 ≠ '\n' := fun hh => hnl (hh ▸ List.mem_cons_self _ _)
              rw [← he.1] at hne
              simp [hne]
            · exact (ihs (RTok.star :: p)).mpr
                ⟨g' ++ t', u, by rw [he.2, List.append_assoc], g', t', rfl,
                  fun hh => hnl (List.mem_cons_of_mem _ hh), hd⟩

theorem reSearch_iff (p : List RTok) (s : List Char) :
    reSearch p s = true ↔ ∃ v t u, s = v ++ t ++ u ∧ DenExact p t := by
  induction s with
  | nil =>
    rw [reSearch_nil, reMatch_iff]
    constructor
    · rintro ⟨t, u, he, hd⟩
      exact ⟨[], t, u, by rw [List.nil_append, ← he], hd⟩
    · rintro ⟨v, t, u, he, hd⟩
      have he' := he.symm
      rw [List.append_eq_nil] at he'
      have he'' := he'.1
      rw [List.append_eq_nil] at he''
      exact ⟨t, u, by rw [he''.2, List.nil_append, he'.2], hd⟩
  | cons d s ih =>
    rw [reSearch_cons, Bool.or_eq_true, reMatch_iff, ih]
    constructor
    · rintro (⟨t, u, he, hd⟩ | ⟨v, t, u, he, hd⟩)
      · exact ⟨[], t, u, by rw [List.nil_append, he], hd⟩
      · exact ⟨d :: v, t, u, by rw [he]; rfl, hd⟩
    · rintro ⟨v, t, u, he, hd⟩
      cases v with
      | nil =>
        rw [List.nil_append] at he
        exact Or.inl ⟨t, u, he, hd⟩
      | cons v0 v' =>
        rw [List.cons_append, List.cons_append, List.cons.injEq] at he
        exact Or.inr ⟨v', t, u, he.2, hd⟩

theorem pySplit_ne_nil (sep : Char) (l : List Char) : pySplit sep l ≠ [] := by
  cases l with
  | nil => simp [pySplit]
  | cons c rest =>
    simp only [pySplit]
    by_cases h : c = sep
    · simp [h]
    · rw [if_neg h]
      cases h2 : pySplit sep rest <;> simp

theorem segCI_cons (c : Char) (s1 m0 : List Char) :
    segCI (c :: s1) m0 ↔
      ∃ d m0', m0 = d :: m0' ∧ c.toLower = d.toLower ∧ segCI s1 m0' := by
  cases m0 with
  | nil => simp [segCI]
  | cons d m0' =>
    simp only [segCI, List.map_cons, List.cons.injEq]
    constructor
    · rintro ⟨h1, h2⟩
      exact ⟨d, m0', ⟨rfl, rfl⟩, h1, h2⟩
    · rintro ⟨d1, m1, hde, h1, h2⟩
      rw [hde.1, hde.2]
      exact ⟨h1, h2⟩

theorem denExact_specSegs (l : List Char) :
    ∀ m, DenExact (l.map (fun c => if c = '*' then RTok.star else RTok.lit c)) m ↔
      SpecSegs (pySplit '*' l) m := by
  induction l with
  | nil =>
    intro m
    show (m = []) ↔ SpecSegs [[]] m
    show (m = []) ↔ segCI [] m
    unfold segCI
    cases m <;> simp
  | cons c l ih =>
    intro m
    by_cases hc : c = '*'
    · subst hc
      show DenExact (RTok.star :: l.map _) m ↔ SpecSegs ([] :: pySplit '*' l) m
      obtain ⟨s1, rest, hsp⟩ : ∃ s1 rest, pySplit '*' l = s1 :: rest := by
        cases h2 : pySplit '*' l with
        | nil => exact absurd h2 (pySplit_ne_nil '*' l)
        | cons s1 rest => exact ⟨s1, rest, rfl⟩
      rw [hsp]
      show (∃ g t, m = g ++ t ∧ '\n' ∉ g ∧ DenExact (l.map _) t) ↔
        SpecSegs ([] :: s1 :: rest) m
      show _ ↔ ∃ m0 g t, m = m0 ++ g ++ t ∧ segCI [] m0 ∧ '\n' ∉ g ∧
        SpecSegs (s1 :: rest) t
      constructor
      · rintro ⟨g, t, he, hnl, hd⟩
        have := (ih t).mp hd
        rw [hsp] at this
        exact ⟨[], g, t, by rw [he]; rfl, by simp [segCI], hnl, this⟩
      · rintro ⟨m0, g, t, he, hm0, hnl, hsp2⟩
        have hm0nil : m0 = [] := by
          unfold segCI at hm0
          cases m0 with
          | nil => rfl
          | cons a b => simp at hm0
        rw [hm0nil, List.nil_append] at he
        refine ⟨g, t, he, hnl, (ih t).mpr ?_⟩
        rw [hsp]
        exact hsp2
    · have hmap : (c :: l).map (fun c => if c = '*' then RTok.star else RTok.lit c) =
          RTok.lit c :: l.map (fun c => if c = '*' then RTok.star else RTok.lit c) := by
        simp [hc]
      rw [hmap]
      obtain ⟨s1, rest, hsp⟩ : ∃ s1 rest, pySplit '*' l = s1 :: rest := by
        cases h2 : pySplit '*' l with
        | nil => exact absurd h2 (pySplit_ne_nil '*' l)
        | cons s1 rest => exact ⟨s1, rest, rfl⟩
      have hspc : pySplit '*' (c :: l) = (c :: s1) :: rest := by
        simp only [pySplit, if_neg hc, hsp]
      rw [hspc]
      have hden : DenExact (RTok.lit c :: l.map
          (fun c => if c = '*' then RTok.star else RTok.lit c)) m ↔
          ∃ d t, m = d :: t ∧ c.toLower = d.toLower ∧
            SpecSegs (s1 :: rest) t := by
        show (∃ d t, m = d :: t ∧ litEq c d = true ∧ DenExact (l.map _) t) ↔ _
        constructor
        · rintro ⟨d, t, he, hle, hd⟩
          have h2 := (ih t).mp hd
          rw [hsp] at h2
          unfold litEq at hle
          rw [beq_iff_eq] at hle
          exact ⟨d, t, he, hle, h2⟩
        · rintro ⟨d, t, he, hle, hsp2⟩
          refine ⟨d, t, he, by unfold litEq; rw [beq_iff_eq]; exact hle, ?_⟩
          apply (ih t).mpr
          rw [hsp]
          exact hsp2
      rw [hden]
      cases rest with
      | nil =>
        show _ ↔ segCI (c :: s1) m
        rw [segCI_cons]
        constructor
        · rintro ⟨d, t, he, hle, hsp2⟩
          exact ⟨d, t, he, hle, hsp2⟩
        · rintro ⟨d, m0', he, hle, hsp2⟩
          exact ⟨d, m0', he, hle, hsp2⟩
      | cons r2 rest' =>
        show _ ↔ ∃ m0 g t, m = m0 ++ g ++ t ∧ segCI (c :: s1) m0 ∧ '\n' ∉ g ∧
          SpecSegs (r2 :: rest') t
        constructor
        · rintro ⟨d, t, he, hle, hsp2⟩
          obtain ⟨m0, g, t', he2, hm0, hnl, hsp3⟩ := hsp2
          refine ⟨d :: m0, g, t', ?_, ?_, hnl, hsp3⟩
          · rw [he, he2]
            simp [List.cons_append]
          · rw [segCI_cons]
            exact ⟨d, m0, rfl, hle, hm0⟩
        · rintro ⟨m0, g, t, he, hm0, hnl, hsp3⟩
          rw [segCI_cons] at hm0
          obtain ⟨d, m0', hm0e, hle, hm0'⟩ := hm0
          refine ⟨d, m0' ++ g ++ t, ?_, hle, m0', g, t, rfl, hm0', hnl, hsp3⟩
          rw [he, hm0e]
          simp [List.cons_append]

/-! ### Index consistency and removal -/

theorem buildPd_dmem (R : List Record) (r : Record) (hr : r ∈ R) :
    dmem r.pid (buildPd R []) = true := by
  unfold dmem
  rw [buildPd_dget]
  cases hf : R.reverse.find? (fun x => x.pid == r.pid) with
  | some r0 => simp [Option.or]
  | none =>
    rw [List.find?_eq_none] at hf
    exact absurd (by simp : (r.pid == r.pid) = true)
      (hf r (List.mem_reverse.mpr hr))

/-- A rebuild from any record list produces consistent indices: every id
referenced by any index is a key of the new record table. -/
theorem update_cache_consistent (c : ProcessCache) (R : List Record) (now : ℚ)
    (hlock : c.update_lock = false) :
    indexConsistent (c.update_cache R now) = true := by
  rw [update_cache_eq c R now hlock]
  unfold indexConsistent
  simp only [Bool.and_eq_true, List.all_eq_true]
  refine ⟨⟨?_, ?_⟩, ?_⟩
  · intro e he
    intro pid hpid
    rcases buildIdx_entry Record.name R [] e he pid hpid with h | h
    · obtain ⟨r, hr, hrp⟩ := h
      exact hrp ▸ buildPd_dmem R r hr
    · obtain ⟨e0, he0, _⟩ := h
      cases he0
  · intro e he
    rcases buildPi_entry R [] e he with h | h
    · obtain ⟨r, hr, hrp⟩ := h
      exact hrp ▸ buildPd_dmem R r hr
    · cases h
  · intro e he
    intro pid hpid
    rcases buildIdx_entry Record.username R [] e he pid hpid with h | h
    · obtain ⟨r, hr, hrp⟩ := h
      exact hrp ▸ buildPd_dmem R r hr
    · obtain ⟨e0, he0, _⟩ := h
      cases he0

theorem map_pair_dvalues (d : List (String × Record))
    (hkeyed : ∀ e ∈ d, e.2.pid = e.1) :
    (dvalues d).map (fun r => (r.pid, r)) = d := by
  induction d with
  | nil => rfl
  | cons e d ih =>
    show (e.2.pid, e.2) :: (dvalues d).map (fun r => (r.pid, r)) = e :: d
    rw [hkeyed e (List.mem_cons_self _ _),
      ih (fun e' he' => hkeyed e' (List.mem_cons_of_mem _ he'))]

theorem buildPd_dvalues (d : List (String × Record)) (hwf : wfTable d) :
    buildPd (dvalues d) [] = d := by
  have hnd : ((dvalues d).map Record.pid).Nodup := by
    rw [map_pid_dvalues _ hwf.2]
    exact hwf.1
  rw [buildPd_of_nodup _ hnd, map_pair_dvalues _ hwf.2]

theorem wf_derase (pid : String) (d : List (String × Record)) (hwf : wfTable d) :
    wfTable (derase pid d) :=
  ⟨derase_keys_nodup pid d hwf.1,
    fun e he => hwf.2 e (mem_of_mem_derase e pid d he).1⟩

/-- The removal sequence on a lock-free cache with a well-formed table:
the record table afterwards is the old one minus the removed key, all
indices are rebuilt from the remaining values, and the sequence stamps
`last_update_time` and sets the valid flag. -/
theorem removeRecord_eq (c : ProcessCache) (pid : String) (now : ℚ)
    (hlock : c.update_lock = false) (hwf : wfTable c.process_data)
    (hmem : dmem pid c.process_data = true) :
    removeRecord c pid now =
      { c with
        process_data := derase pid c.process_data
        name_index := buildIdx Record.name (dvalues (derase pid c.process_data)) []
        port_index := buildPi (dvalues (derase pid c.process_data)) []
        username_index :=
          buildIdx Record.username (dvalues (derase pid c.process_data)) []
        last_update_time := now
        is_cache_valid := true
        update_lock := false } := by
  unfold removeRecord
  rw [if_pos hmem]
  show ({ c with process_data := derase pid c.process_data }).update_cache
    (dvalues (derase pid c.process_data)) now = _
  rw [update_cache_eq { c with process_data := derase pid c.process_data }
    (dvalues (derase pid c.process_data)) now hlock]
  rw [buildPd_dvalues _ (wf_derase pid _ hwf)]

theorem values_derase_pid (pid : String) (d : List (String × Record))
    (hwf : wfTable d) (r : Record) (hr : r ∈ dvalues (derase pid d)) :
    r.pid ≠ pid := by
  obtain ⟨e, he, hv⟩ := List.mem_map.mp hr
  obtain ⟨heM, hne⟩ := mem_of_mem_derase e pid d he
  rw [← hv]
  rw [hwf.2 e heM]
  exact hne

/-! ### Nullable patterns and the membership characterization -/

theorem reSearch_of_nullable (p : List RTok) (h : reMatch p [] = true)
    (s : List Char) : reSearch p s = true := by
  induction s with
  | nil => rw [reSearch_nil]; exact h
  | cons d s ih =>
    rw [reSearch_cons, Bool.or_eq_true]
    exact Or.inr ih

theorem search_mem_iff (c0 : ProcessCache) (R : List Record) (now : ℚ)
    (k : String) (hlock : c0.update_lock = false)
    (hnd : (R.map Record.pid).Nodup) (hdisj : portsDisjoint R) (hk : ¬ k = "")
    (r : Record) :
    r ∈ (c0.update_cache R now).search_processes k ↔
      r ∈ R ∧ (keywordMatch k r.pid = true ∨ keywordMatch k r.name = true ∨
        (∃ t ∈ portTokens r.ports, keywordMatch k t = true) ∨
        keywordMatch k r.username = true) := by
  obtain ⟨B2, B3, B4, hout, hB2, hB3, hB4, _⟩ :=
    search_processes_blocks c0 R now k hlock hnd hdisj hk
  rw [hout]
  simp only [List.mem_append]
  constructor
  · rintro (((h | h) | h) | h)
    · exact ⟨List.mem_of_mem_filter h, Or.inl (by simpa using List.of_mem_filter h)⟩
    · obtain ⟨h1, h2, _⟩ := (hB2 r).mp h
      exact ⟨h1, Or.inr (Or.inl h2)⟩
    · obtain ⟨h1, h2, _⟩ := (hB3 r).mp h
      exact ⟨h1, Or.inr (Or.inr (Or.inl h2))⟩
    · obtain ⟨h1, h2, _⟩ := (hB4 r).mp h
      exact ⟨h1, Or.inr (Or.inr (Or.inr h2))⟩
  · rintro ⟨hrR, hmatch⟩
    by_cases hpid : keywordMatch k r.pid = true
    · exact Or.inl (Or.inl (Or.inl (List.mem_filter.mpr ⟨hrR, hpid⟩)))
    · have hpidf : keywordMatch k r.pid = false := by simpa using hpid
      by_cases hname : keywordMatch k r.name = true
      · exact Or.inl (Or.inl (Or.inr ((hB2 r).mpr ⟨hrR, hname, hpidf⟩)))
      · have hnamef : keywordMatch k r.name = false := by simpa using hname
        by_cases hport : ∃ t ∈ portTokens r.ports, keywordMatch k t = true
        · exact Or.inl (Or.inr ((hB3 r).mpr ⟨hrR, hport, hpidf, hnamef⟩))
        · have huser : keywordMatch k r.username = true := by
            rcases hmatch with h | h | h | h
            · exact absurd h hpid
            · exact absurd h hname
            · exact absurd h hport
            · exact h
          exact Or.inr ((hB4 r).mpr ⟨hrR, huser, hpidf, hnamef, hport⟩)

/-- Validity unfolds to the non-strict age comparison: the code's
`is_expired` uses a strict `>`, so validity holds up to and including
age = TTL. -/
theorem is_valid_le_iff (c : ProcessCache) (now : ℚ) :
    c.is_valid now = true ↔
      (c.is_cache_valid = true ∧
        now - c.last_update_time ≤ c.cache_expiry_seconds) := by
  unfold ProcessCache.is_valid ProcessCache.is_expired
  rw [Bool.and_eq_true, Bool.not_eq_true']
  rw [decide_eq_false_iff_not, not_lt]

/-! ### Claim theorems -/

/-- C9: a rebuild (`update_cache`) entered while another rebuild is marked
in flight (`_update_lock` set) returns immediately as a no-op: the record
table, all three indices, `last_update_time` and the validity flag are
left unchanged (the whole state is unchanged). -/
theorem C9_locked_rebuild_noop (c : ProcessCache) (R : List Record) (now : ℚ)
    (h : c.update_lock = true) : c.update_cache R now = c := by
  unfold ProcessCache.update_cache
  simp [h]

/-- Witness for C9 at a concrete locked cache state. -/
theorem C9_locked_rebuild_noop_witness :
    ProcessCache.update_cache ⟨10, [], [], [], [], 0, true, true⟩
      [⟨"1", "a", "u", "", ""⟩] 5 = ⟨10, [], [], [], [], 0, true, true⟩ :=
  C9_locked_rebuild_noop ⟨10, [], [], [], [], 0, true, true⟩
    [⟨"1", "a", "u", "", ""⟩] 5 rfl

/-- C7: when the whole-batch fetch raises, the refresh step leaves the
manager (cache and armed flag) completely untouched, emits no success
notification, and emits a failure notification carrying the error; the
exception is swallowed by the `except` block, so the step returns normally
and the periodic timer stays armed. -/
theorem C7_fetch_failure_leaves_cache (m : CacheManager) (e : String) (now : ℚ) :
    CacheManager.update_cache m (Except.error e) now = (m, none, some e) := rfl

/-- Counterexample to C4 as stated: at age exactly equal to the TTL the
code still reports the cache valid (`is_expired` uses a strict `>`), while
the claim's `age < TTL` condition is false, so the claimed equivalence
fails at this input. -/
theorem C4_strict_ttl_cex :
    ¬ ((ProcessCache.is_valid ⟨10, [], [], [], [], 0, true, false⟩ 10 = true) ↔
      ((⟨10, [], [], [], [], 0, true, false⟩ : ProcessCache).is_cache_valid = true ∧
        (10 : ℚ) - (⟨10, [], [], [], [], 0, true, false⟩ : ProcessCache).last_update_time <
          (⟨10, [], [], [], [], 0, true, false⟩ : ProcessCache).cache_expiry_seconds)) := by
  intro h
  have h1 : ProcessCache.is_valid ⟨10, [], [], [], [], 0, true, false⟩ 10 = true :=
    (is_valid_le_iff ⟨10, [], [], [], [], 0, true, false⟩ 10).mpr
      ⟨rfl, by norm_num⟩
  have h2 := (h.mp h1).2
  norm_num at h2

/-- C4 amended: `is_valid` returns true iff the validity flag is set and
the age since the last refresh is at most (not strictly less than) the
TTL; equivalently, once `now - last_update_time` exceeds the TTL the cache
reports invalid. -/
theorem C4_is_valid_iff (c : ProcessCache) (now : ℚ) :
    c.is_valid now = true ↔
      (c.is_cache_valid = true ∧
        now - c.last_update_time ≤ c.cache_expiry_seconds) :=
  is_valid_le_iff c now

/-- Counterexample to C2 as stated: `*` does not match a sequence
containing a newline, because Python's `.` (without `DOTALL`) excludes
`'\n'`: the snapshot holds a record whose name is `"a" ++ "\n" ++ "b"`,
yet `search("a*b")` returns nothing. -/
theorem C2_newline_cex :
    (ProcessCache.update_cache (ProcessCache.init 10)
      [⟨"1", "a\nb", "u", "", ""⟩] 0).search_processes "a*b" = [] ∧
    ("a\nb" : String) = "a" ++ "\n" ++ "b" ∧
    keywordMatch "a*b" "a\nb" = false := by
  refine ⟨by decide, by decide, by decide⟩

/-- C2 amended: search treats the keyword as a literal string except that
each `*` matches any possibly-empty sequence of non-newline characters;
every other character, including regex metacharacters, is matched
literally and case-insensitively, and the match is unanchored: the
matcher accepts a field iff some contiguous region of it decomposes into
the keyword's `*`-separated segments (case-insensitively) joined by
newline-free gaps.  The documented examples hold, and the matcher is a
total function, so no keyword makes search raise. -/
theorem C2_wildcard_semantics :
    (∀ k s : String, keywordMatch k s = true ↔
      ∃ v m u : List Char, s.data = v ++ m ++ u ∧
        SpecSegs (pySplit '*' k.data) m) ∧
    keywordMatch "a*b" "aXXXb" = true ∧ keywordMatch "a*b" "ab" = true ∧
    keywordMatch "a*b" "ba" = false ∧
    keywordMatch "ch*exe" "chrome.exe" = true := by
  refine ⟨?_, by decide, by decide, by decide, by decide⟩
  intro k s
  rw [keywordMatch_eq_raw, reSearch_iff]
  constructor
  · rintro ⟨v, t, u, he, hd⟩
    exact ⟨v, t, u, he, (denExact_specSegs k.data t).mp hd⟩
  · rintro ⟨v, m, u, he, hs⟩
    exact ⟨v, m, u, he, (denExact_specSegs k.data m).mpr hs⟩

/-- Counterexample to C5 as stated: the removal sequence ends in
`update_cache`, which stamps `last_update_time` with the current time and
forces the validity flag to true, so neither is preserved. -/
theorem C5_remove_stamps_cex :
    ¬ (((removeRecord ((ProcessCache.update_cache (ProcessCache.init 10)
          [⟨"1", "a", "u", "", ""⟩] 0).invalidate_cache) "1" 5).last_update_time =
        ((ProcessCache.update_cache (ProcessCache.init 10)
          [⟨"1", "a", "u", "", ""⟩] 0).invalidate_cache).last_update_time) ∧
       ((removeRecord ((ProcessCache.update_cache (ProcessCache.init 10)
          [⟨"1", "a", "u", "", ""⟩] 0).invalidate_cache) "1" 5).is_cache_valid =
        ((ProcessCache.update_cache (ProcessCache.init 10)
          [⟨"1", "a", "u", "", ""⟩] 0).invalidate_cache).is_cache_valid)) := by
  decide

/-- C5 amended: on a lock-free cache with a well-formed table,
`removeRecord(id)` deletes the record with that id and rebuilds all three
indices from the remaining table — but, because it reuses `update_cache`,
it also stamps `last_update_time` with the removal time and sets the
validity flag to true instead of leaving them unchanged. -/
theorem C5_removeRecord (c : ProcessCache) (pid : String) (now : ℚ)
    (hlock : c.update_lock = false) (hwf : wfTable c.process_data)
    (hmem : dmem pid c.process_data = true) :
    (removeRecord c pid now).process_data = derase pid c.process_data ∧
    (removeRecord c pid now).name_index =
      buildIdx Record.name (dvalues (derase pid c.process_data)) [] ∧
    (removeRecord c pid now).port_index =
      buildPi (dvalues (derase pid c.process_data)) [] ∧
    (removeRecord c pid now).username_index =
      buildIdx Record.username (dvalues (derase pid c.process_data)) [] ∧
    (removeRecord c pid now).last_update_time = now ∧
    (removeRecord c pid now).is_cache_valid = true := by
  rw [removeRecord_eq c pid now hlock hwf hmem]
  exact ⟨rfl, rfl, rfl, rfl, rfl, rfl⟩

/-- Witness for C5's amended theorem at a concrete cache. -/
theorem C5_removeRecord_witness :
    ((removeRecord (ProcessCache.update_cache (ProcessCache.init 10)
        [⟨"1", "a", "u", "", "80"⟩, ⟨"2", "b", "v", "", "443"⟩] 0) "1" 5).process_data =
      derase "1" (ProcessCache.update_cache (ProcessCache.init 10)
        [⟨"1", "a", "u", "", "80"⟩, ⟨"2", "b", "v", "", "443"⟩] 0).process_data ∧
    (removeRecord (ProcessCache.update_cache (ProcessCache.init 10)
        [⟨"1", "a", "u", "", "80"⟩, ⟨"2", "b", "v", "", "443"⟩] 0) "1" 5).name_index =
      buildIdx Record.name (dvalues (derase "1"
        (ProcessCache.update_cache (ProcessCache.init 10)
          [⟨"1", "a", "u", "", "80"⟩, ⟨"2", "b", "v", "", "443"⟩] 0).process_data)) [] ∧
    (removeRecord (ProcessCache.update_cache (ProcessCache.init 10)
        [⟨"1", "a", "u", "", "80"⟩, ⟨"2", "b", "v", "", "443"⟩] 0) "1" 5).port_index =
      buildPi (dvalues (derase "1"
        (ProcessCache.update_cache (ProcessCache.init 10)
          [⟨"1", "a", "u", "", "80"⟩, ⟨"2", "b", "v", "", "443"⟩] 0).process_data)) [] ∧
    (removeRecord (ProcessCache.update_cache (ProcessCache.init 10)
        [⟨"1", "a", "u", "", "80"⟩, ⟨"2", "b", "v", "", "443"⟩] 0) "1" 5).username_index =
      buildIdx Record.username (dvalues (derase "1"
        (ProcessCache.update_cache (ProcessCache.init 10)
          [⟨"1", "a", "u", "", "80"⟩, ⟨"2", "b", "v", "", "443"⟩] 0).process_data)) [] ∧
    (removeRecord (ProcessCache.update_cache (ProcessCache.init 10)
        [⟨"1", "a", "u", "", "80"⟩, ⟨"2", "b", "v", "", "443"⟩] 0) "1" 5).last_update_time =
      (5 : ℚ) ∧
    (removeRecord (ProcessCache.update_cache (ProcessCache.init 10)
        [⟨"1", "a", "u", "", "80"⟩, ⟨"2", "b", "v", "", "443"⟩] 0) "1" 5).is_cache_valid =
      true) :=
  C5_removeRecord (ProcessCache.update_cache (ProcessCache.init 10)
    [⟨"1", "a", "u", "", "80"⟩, ⟨"2", "b", "v", "", "443"⟩] 0) "1" 5
    (by decide) (by decide) (by decide)

theorem removeRecord_absent (c : ProcessCache) (pid : String) (now : ℚ)
    (h : dmem pid c.process_data = false) : removeRecord c pid now = c := by
  unfold removeRecord
  rw [h]
  simp

/-- C3: after a rebuild from a record list `R` with pairwise-distinct ids
(on a lock-free cache with a non-negative TTL), the cache reports valid at
the rebuild instant, and both `search("")` and `search("*")` return
exactly the records of `R` in snapshot insertion order. -/
theorem C3_rebuild_valid_and_full (c : ProcessCache) (R : List Record) (now : ℚ)
    (hlock : c.update_lock = false) (hnd : (R.map Record.pid).Nodup)
    (httl : 0 ≤ c.cache_expiry_seconds) :
    (c.update_cache R now).is_valid now = true ∧
    (c.update_cache R now).search_processes "" = R ∧
    (c.update_cache R now).search_processes "*" = R := by
  refine ⟨?_, ?_, search_star c R now hlock hnd⟩
  · rw [update_cache_eq c R now hlock]
    refine (is_valid_le_iff _ now).mpr ⟨rfl, ?_⟩
    show now - now ≤ c.cache_expiry_seconds
    rw [sub_self]
    exact httl
  · rw [search_empty, update_cache_eq c R now hlock]
    show dvalues (buildPd R []) = R
    exact update_values R hnd

/-- Witness for C3 at a concrete two-record snapshot. -/
theorem C3_rebuild_valid_and_full_witness :
    ((ProcessCache.init 10).update_cache
        [⟨"1", "alpha", "root", "", "80"⟩, ⟨"2", "beta", "bob", "", "443"⟩] 3).is_valid
      3 = true ∧
    ((ProcessCache.init 10).update_cache
        [⟨"1", "alpha", "root", "", "80"⟩, ⟨"2", "beta", "bob", "", "443"⟩] 3).search_processes
      "" = [⟨"1", "alpha", "root", "", "80"⟩, ⟨"2", "beta", "bob", "", "443"⟩] ∧
    ((ProcessCache.init 10).update_cache
        [⟨"1", "alpha", "root", "", "80"⟩, ⟨"2", "beta", "bob", "", "443"⟩] 3).search_processes
      "*" = [⟨"1", "alpha", "root", "", "80"⟩, ⟨"2", "beta", "bob", "", "443"⟩] :=
  C3_rebuild_valid_and_full (ProcessCache.init 10)
    [⟨"1", "alpha", "root", "", "80"⟩, ⟨"2", "beta", "bob", "", "443"⟩] 3
    rfl (by decide) (by norm_num [ProcessCache.init])

/-- C10: rebuilding from a list that may contain several records with the
same id leaves the table mapping each id to the last such record in list
order (`find?` on the reversed list), keeps every index entry pointing at
an id present in the table, and search still returns at most one record
per id for every keyword. -/
theorem C10_duplicate_ids (c : ProcessCache) (R : List Record) (now : ℚ)
    (id k : String) (hlock : c.update_lock = false) :
    dget id (c.update_cache R now).process_data =
      R.reverse.find? (fun r => r.pid == id) ∧
    indexConsistent (c.update_cache R now) = true ∧
    (((c.update_cache R now).search_processes k).map Record.pid).Nodup := by
  refine ⟨?_, update_cache_consistent c R now hlock, ?_⟩
  · rw [update_cache_eq c R now hlock]
    show dget id (buildPd R []) = _
    rw [buildPd_dget]
    cases hf : R.reverse.find? (fun r => r.pid == id) <;> simp [dget, Option.or]
  · apply search_nodup
    rw [update_cache_eq c R now hlock]
    exact buildPd_wf R

/-- Witness for C10 on an input with a duplicated id. -/
theorem C10_duplicate_ids_witness :
    dget "1" ((ProcessCache.init 10).update_cache
        [⟨"1", "a", "u", "", "80"⟩, ⟨"1", "b", "v", "", "81"⟩] 0).process_data =
      [⟨"1", "a", "u", "", "80"⟩, ⟨"1", "b", "v", "", "81"⟩].reverse.find?
        (fun r => r.pid == "1") ∧
    indexConsistent ((ProcessCache.init 10).update_cache
        [⟨"1", "a", "u", "", "80"⟩, ⟨"1", "b", "v", "", "81"⟩] 0) = true ∧
    ((((ProcessCache.init 10).update_cache
        [⟨"1", "a", "u", "", "80"⟩, ⟨"1", "b", "v", "", "81"⟩] 0).search_processes
      "b").map Record.pid).Nodup :=
  C10_duplicate_ids (ProcessCache.init 10)
    [⟨"1", "a", "u", "", "80"⟩, ⟨"1", "b", "v", "", "81"⟩] 0 "1" "b" rfl

/-- C6: index consistency (every id referenced by the name, port or
username index is a key of the record table) is preserved by every cache
operation — rebuild, the removal sequence, invalidation and clearing —
and after `removeRecord(id)` a search for that id returns no record with
that id while no index retains a dangling reference to it.  Stated on a
lock-free cache with a well-formed, consistent state. -/
theorem C6_index_consistency (c : ProcessCache) (R : List Record) (pid : String)
    (now now2 : ℚ) (hlock : c.update_lock = false)
    (hwf : wfTable c.process_data) (hcons : indexConsistent c = true) :
    indexConsistent (c.update_cache R now) = true ∧
    indexConsistent c.invalidate_cache = true ∧
    indexConsistent c.clear_cache = true ∧
    indexConsistent (removeRecord c pid now2) = true ∧
    (∀ r ∈ (removeRecord c pid now2).search_processes pid, r.pid ≠ pid) ∧
    referencesId (removeRecord c pid now2) pid = false := by
  refine ⟨update_cache_consistent c R now hlock, hcons, rfl, ?_, ?_, ?_⟩
  · by_cases hm : dmem pid c.process_data = true
    · unfold removeRecord
      rw [if_pos hm]
      exact update_cache_consistent
        { c with process_data := derase pid c.process_data }
        (dvalues (derase pid c.process_data)) now2 hlock
    · have hm' : dmem pid c.process_data = false := by simpa using hm
      rw [removeRecord_absent c pid now2 hm']
      exact hcons
  · by_cases hm : dmem pid c.process_data = true
    · have hre := removeRecord_eq c pid now2 hlock hwf hm
      intro r hr hrp
      have hwf' : wfTable (removeRecord c pid now2).process_data := by
        rw [hre]
        exact wf_derase pid _ hwf
      have hget := search_mem_table _ pid hwf' r hr
      rw [hrp, hre] at hget
      have hget2 : dget pid (derase pid c.process_data) = some r := hget
      rw [dget_derase_self] at hget2
      cases hget2
    · have hm' : dmem pid c.process_data = false := by simpa using hm
      rw [removeRecord_absent c pid now2 hm']
      intro r hr hrp
      have hget := search_mem_table c pid hwf r hr
      rw [hrp] at hget
      unfold dmem at hm'
      rw [hget] at hm'
      cases hm'
  · by_cases hm : dmem pid c.process_data = true
    · have hre := removeRecord_eq c pid now2 hlock hwf hm
      rw [hre]
      rw [Bool.eq_false_iff]
      intro habs
      simp only [referencesId, Bool.or_eq_true, List.any_eq_true] at habs
      rcases habs with (⟨e, he, hpe⟩ | ⟨e, he, hpe⟩) | ⟨e, he, hpe⟩
      · rw [decide_eq_true_eq] at hpe
        rcases buildIdx_entry Record.name _ [] e he pid hpe with h2 | h2
        · obtain ⟨r, hrV, hrp⟩ := h2
          exact values_derase_pid pid _ hwf r hrV hrp
        · obtain ⟨e0, he0, _⟩ := h2
          cases he0
      · rw [beq_iff_eq] at hpe
        rcases buildPi_entry _ [] e he with h2 | h2
        · obtain ⟨r, hrV, hrp⟩ := h2
          exact values_derase_pid pid _ hwf r hrV (by rw [← hrp, hpe])
        · cases h2
      · rw [decide_eq_true_eq] at hpe
        rcases buildIdx_entry Record.username _ [] e he pid hpe with h2 | h2
        · obtain ⟨r, hrV, hrp⟩ := h2
          exact values_derase_pid pid _ hwf r hrV hrp
        · obtain ⟨e0, he0, _⟩ := h2
          cases he0
    · have hm' : dmem pid c.process_data = false := by simpa using hm
      rw [removeRecord_absent c pid now2 hm']
      rw [Bool.eq_false_iff]
      intro habs
      unfold indexConsistent at hcons
      simp only [Bool.and_eq_true, List.all_eq_true] at hcons
      obtain ⟨⟨hc1, hc2⟩, hc3⟩ := hcons
      simp only [referencesId, Bool.or_eq_true, List.any_eq_true] at habs
      rcases habs with (⟨e, he, hpe⟩ | ⟨e, he, hpe⟩) | ⟨e, he, hpe⟩
      · rw [decide_eq_true_eq] at hpe
        have h2 := hc1 e he pid hpe
        rw [h2] at hm'
        cases hm'
      · rw [beq_iff_eq] at hpe
        have h2 := hc2 e he
        rw [hpe] at h2
        rw [h2] at hm'
        cases hm'
      · rw [decide_eq_true_eq] at hpe
        have h2 := hc3 e he pid hpe
        rw [h2] at hm'
        cases hm'

/-- Witness for C6 at a concrete consistent two-record cache. -/
theorem C6_index_consistency_witness :
    indexConsistent (((ProcessCache.init 10).update_cache
        [⟨"1", "a", "u", "", "80"⟩, ⟨"2", "b", "v", "", "443"⟩] 0).update_cache
      [⟨"3", "c", "w", "", ""⟩] 1) = true ∧
    indexConsistent ((ProcessCache.init 10).update_cache
        [⟨"1", "a", "u", "", "80"⟩, ⟨"2", "b", "v", "", "443"⟩] 0).invalidate_cache =
      true ∧
    indexConsistent ((ProcessCache.init 10).update_cache
        [⟨"1", "a", "u", "", "80"⟩, ⟨"2", "b", "v", "", "443"⟩] 0).clear_cache =
      true ∧
    indexConsistent (removeRecord ((ProcessCache.init 10).update_cache
        [⟨"1", "a", "u", "", "80"⟩, ⟨"2", "b", "v", "", "443"⟩] 0) "1" 2) = true ∧
    (∀ r ∈ (removeRecord ((ProcessCache.init 10).update_cache
        [⟨"1", "a", "u", "", "80"⟩, ⟨"2", "b", "v", "", "443"⟩] 0) "1" 2).search_processes
      "1", r.pid ≠ "1") ∧
    referencesId (removeRecord ((ProcessCache.init 10).update_cache
        [⟨"1", "a", "u", "", "80"⟩, ⟨"2", "b", "v", "", "443"⟩] 0) "1" 2) "1" =
      false :=
  C6_index_consistency ((ProcessCache.init 10).update_cache
      [⟨"1", "a", "u", "", "80"⟩, ⟨"2", "b", "v", "", "443"⟩] 0)
    [⟨"3", "c", "w", "", ""⟩] "1" 1 2 (by decide) (by decide) (by decide)

/-- Counterexample to C1 as stated: two records share the port token
`"80"`; the port index is last-writer-wins, so `search("80")` returns
only the second record although the keyword is a substring of a port of
both.  The claim's "exactly the records in which the keyword is a
substring of … one of its ports" therefore fails on this snapshot. -/
theorem C1_port_collision_cex :
    (ProcessCache.update_cache (ProcessCache.init 10)
        [⟨"1", "a", "u", "", "80"⟩, ⟨"2", "b", "v", "", "80"⟩] 0).search_processes
      "80" = [⟨"2", "b", "v", "", "80"⟩] ∧
    (∃ t ∈ portTokens (⟨"1", "a", "u", "", "80"⟩ : Record).ports,
      substrCIb "80" t = true) ∧
    (⟨"1", "a", "u", "", "80"⟩ : Record) ∉
      (ProcessCache.update_cache (ProcessCache.init 10)
        [⟨"1", "a", "u", "", "80"⟩, ⟨"2", "b", "v", "", "80"⟩] 0).search_processes
      "80" := by
  refine ⟨by decide, ⟨"80", by decide, by decide⟩, by decide⟩

/-- C1 amended: on snapshots whose records have pairwise-distinct ids and
pairwise-disjoint port token sets (the port index loses collisions to the
last writer, so the original claim fails when two records share a port),
a non-empty star-free keyword returns exactly the records in which the
keyword is a case-insensitive substring of the id, name, owner, or one of
the record's port tokens, each record at most once, ordered as: id
matches in snapshot order, then the name matches, then the port matches,
then the owner matches, skipping records already emitted. -/
theorem C1_search_exact (c : ProcessCache) (R : List Record) (now : ℚ)
    (k : String) (hlock : c.update_lock = false)
    (hnd : (R.map Record.pid).Nodup) (hdisj : portsDisjoint R)
    (hk : ¬ k = "") (hstar : '*' ∉ k.data) :
    ∃ B2 B3 B4 : List Record,
      (c.update_cache R now).search_processes k =
        R.filter (fun r => substrCIb k r.pid) ++ B2 ++ B3 ++ B4 ∧
      (∀ r : Record, r ∈ B2 ↔ r ∈ R ∧ substrCIb k r.name = true ∧
        substrCIb k r.pid = false) ∧
      (∀ r : Record, r ∈ B3 ↔ r ∈ R ∧
        (∃ t ∈ portTokens r.ports, substrCIb k t = true) ∧
        substrCIb k r.pid = false ∧ substrCIb k r.name = false) ∧
      (∀ r : Record, r ∈ B4 ↔ r ∈ R ∧ substrCIb k r.username = true ∧
        substrCIb k r.pid = false ∧ substrCIb k r.name = false ∧
        ¬ ∃ t ∈ portTokens r.ports, substrCIb k t = true) ∧
      (((c.update_cache R now).search_processes k).map Record.pid).Nodup ∧
      (∀ r : Record, r ∈ (c.update_cache R now).search_processes k ↔
        r ∈ R ∧ (substrCIb k r.pid = true ∨ substrCIb k r.name = true ∨
          (∃ t ∈ portTokens r.ports, substrCIb k t = true) ∨
          substrCIb k r.username = true)) := by
  have hksub : ∀ s : String, keywordMatch k s = substrCIb k s :=
    fun s => keywordMatch_no_star k s hstar
  obtain ⟨B2, B3, B4, hout, hB2, hB3, hB4, hnodup⟩ :=
    search_processes_blocks c R now k hlock hnd hdisj hk
  refine ⟨B2, B3, B4, ?_, ?_, ?_, ?_, hnodup, ?_⟩
  · rw [hout, List.filter_congr (fun x _ => hksub x.pid)]
  · intro r
    rw [hB2 r]
    simp only [hksub]
  · intro r
    rw [hB3 r]
    simp only [hksub]
  · intro r
    rw [hB4 r]
    simp only [hksub]
  · intro r
    rw [search_mem_iff c R now k hlock hnd hdisj hk r]
    simp only [hksub]

/-- Witness for C1's amended theorem at a concrete snapshot and keyword. -/
theorem C1_search_exact_witness :
    ∃ B2 B3 B4 : List Record,
      ((ProcessCache.init 10).update_cache
          [⟨"10", "chrome.exe", "alice", "", "80"⟩,
            ⟨"21", "bash", "bob", "", "443"⟩] 0).search_processes "0" =
        [⟨"10", "chrome.exe", "alice", "", "80"⟩,
          ⟨"21", "bash", "bob", "", "443"⟩].filter
            (fun r => substrCIb "0" r.pid) ++ B2 ++ B3 ++ B4 ∧
      (∀ r : Record, r ∈ B2 ↔
        r ∈ [⟨"10", "chrome.exe", "alice", "", "80"⟩,
          ⟨"21", "bash", "bob", "", "443"⟩] ∧ substrCIb "0" r.name = true ∧
        substrCIb "0" r.pid = false) ∧
      (∀ r : Record, r ∈ B3 ↔
        r ∈ [⟨"10", "chrome.exe", "alice", "", "80"⟩,
          ⟨"21", "bash", "bob", "", "443"⟩] ∧
        (∃ t ∈ portTokens r.ports, substrCIb "0" t = true) ∧
        substrCIb "0" r.pid = false ∧ substrCIb "0" r.name = false) ∧
      (∀ r : Record, r ∈ B4 ↔
        r ∈ [⟨"10", "chrome.exe", "alice", "", "80"⟩,
          ⟨"21", "bash", "bob", "", "443"⟩] ∧ substrCIb "0" r.username = true ∧
        substrCIb "0" r.pid = false ∧ substrCIb "0" r.name = false ∧
        ¬ ∃ t ∈ portTokens r.ports, substrCIb "0" t = true) ∧
      ((((ProcessCache.init 10).update_cache
          [⟨"10", "chrome.exe", "alice", "", "80"⟩,
            ⟨"21", "bash", "bob", "", "443"⟩] 0).search_processes "0").map
        Record.pid).Nodup ∧
      (∀ r : Record, r ∈ ((ProcessCache.init 10).update_cache
          [⟨"10", "chrome.exe", "alice", "", "80"⟩,
            ⟨"21", "bash", "bob", "", "443"⟩] 0).search_processes "0" ↔
        r ∈ [⟨"10", "chrome.exe", "alice", "", "80"⟩,
          ⟨"21", "bash", "bob", "", "443"⟩] ∧
        (substrCIb "0" r.pid = true ∨ substrCIb "0" r.name = true ∨
          (∃ t ∈ portTokens r.ports, substrCIb "0" t = true) ∨
          substrCIb "0" r.username = true)) :=
  C1_search_exact (ProcessCache.init 10)
    [⟨"10", "chrome.exe", "alice", "", "80"⟩, ⟨"21", "bash", "bob", "", "443"⟩]
    0 "0" (by decide) (by decide) (by decide) (by decide) (by decide)

/-- Counterexample to C8 as stated: the fallback filter tests the raw
comma-joined `ports` string while the cache search tests the individual
port tokens, so the keyword `","` matches a record with two ports in the
fallback path but matches nothing in the cache. -/
theorem C8_fallback_raw_ports_cex :
    ProcessFetcher.fallbackFilter "," [⟨"1", "a", "u", "", "80,443"⟩] =
      [⟨"1", "a", "u", "", "80,443"⟩] ∧
    (ProcessCache.update_cache (ProcessCache.init 10)
      [⟨"1", "a", "u", "", "80,443"⟩] 0).search_processes "," = [] := by
  refine ⟨by decide, by decide⟩

/-- C8 amended: the fallback filter and the cache search apply the same
wildcard matcher per field, but the fallback matches the raw `ports`
string where the cache matches individual port tokens; when every
record's `ports` field is a single clean token (no comma, no surrounding
whitespace) or empty, ids are pairwise distinct and no port token is
shared, the two paths return exactly the same set of records for every
keyword. -/
theorem C8_fallback_equiv (c : ProcessCache) (R : List Record) (now : ℚ)
    (k : String) (hlock : c.update_lock = false)
    (hnd : (R.map Record.pid).Nodup) (hdisj : portsDisjoint R)
    (hsingle : ∀ r ∈ R, portTokens r.ports =
      if r.ports = "" then [] else [r.ports]) :
    ∀ r : Record, r ∈ ProcessFetcher.fallbackFilter k R ↔
      r ∈ (c.update_cache R now).search_processes k := by
  intro r
  by_cases hk : k = ""
  · subst hk
    unfold ProcessFetcher.fallbackFilter
    rw [if_pos rfl]
    rw [search_empty, update_cache_eq c R now hlock]
    show r ∈ R ↔ r ∈ dvalues (buildPd R [])
    rw [update_values R hnd]
  · rw [search_mem_iff c R now k hlock hnd hdisj hk r]
    unfold ProcessFetcher.fallbackFilter
    rw [if_neg hk]
    rw [List.mem_filter]
    have hkm : ∀ s : String, reSearch (buildPattern k) s.data = keywordMatch k s :=
      fun s => (keywordMatch_eq_raw k s).symm
    constructor
    · rintro ⟨hrR, hm⟩
      refine ⟨hrR, ?_⟩
      simp only [Bool.or_eq_true] at hm
      rcases hm with ((h | h) | h) | h
      · exact Or.inl (by rw [← hkm]; exact h)
      · exact Or.inr (Or.inl (by rw [← hkm]; exact h))
      · exact Or.inr (Or.inr (Or.inr (by rw [← hkm]; exact h)))
      · by_cases hp : r.ports = ""
        · refine Or.inl ?_
          rw [← hkm]
          apply reSearch_of_nullable
          rw [← reSearch_nil]
          rw [hp] at h
          exact h
        · refine Or.inr (Or.inr (Or.inl ⟨r.ports, ?_, by rw [← hkm]; exact h⟩))
          rw [hsingle r hrR, if_neg hp]
          exact List.mem_singleton.mpr rfl
    · rintro ⟨hrR, hm⟩
      refine ⟨hrR, ?_⟩
      simp only [Bool.or_eq_true]
      rcases hm with h | h | h | h
      · exact Or.inl (Or.inl (Or.inl (by rw [hkm]; exact h)))
      · exact Or.inl (Or.inl (Or.inr (by rw [hkm]; exact h)))
      · obtain ⟨t, ht, hmt⟩ := h
        rw [hsingle r hrR] at ht
        by_cases hp : r.ports = ""
        · rw [if_pos hp] at ht
          cases ht
        · rw [if_neg hp] at ht
          rw [List.mem_singleton] at ht
          subst ht
          exact Or.inr (by rw [hkm]; exact hmt)
      · exact Or.inl (Or.inr (by rw [hkm]; exact h))

/-- Witness for C8's amended theorem at a concrete record list and record. -/
theorem C8_fallback_equiv_witness :
    (⟨"1", "chrome.exe", "alice", "", "80"⟩ : Record) ∈
        ProcessFetcher.fallbackFilter "8"
          [⟨"1", "chrome.exe", "alice", "", "80"⟩,
            ⟨"2", "bash", "bob", "", ""⟩] ↔
      (⟨"1", "chrome.exe", "alice", "", "80"⟩ : Record) ∈
        ((ProcessCache.init 10).update_cache
          [⟨"1", "chrome.exe", "alice", "", "80"⟩,
            ⟨"2", "bash", "bob", "", ""⟩] 0).search_processes "8" :=
  C8_fallback_equiv (ProcessCache.init 10)
    [⟨"1", "chrome.exe", "alice", "", "80"⟩, ⟨"2", "bash", "bob", "", ""⟩]
    0 "8" (by decide) (by decide) (by decide) (by decide)
    ⟨"1", "chrome.exe", "alice", "", "80"⟩
